import Mathlib

/-!
Verification of the conversion engine of `src/app.py` (Whisper-timestamp → SRT).

The Python core operates on IEEE-754 binary64 floating point numbers.  We embed
doubles as exact dyadic rationals: `rd : ℚ → ℚ` is correct rounding to nearest,
ties to even, with a 53-bit significand (normal range only — none of the values
reached by the claims is subnormal or overflows).  Every arithmetic operation
the Python code performs on floats is modelled by the exact rational operation
followed by `rd`, which is exactly what IEEE-754 basic operations do.

Strings are modelled as `List Char` (ASCII fragment: the inputs exercised by
the specification are ASCII; Python's `\d`, `\s`, `strip`, `float` are modelled
on their ASCII behaviour).
-/

set_option maxRecDepth 40000

attribute [local semireducible] Rat.add Rat.mul Rat.inv Rat.sub Rat.ofScientific

/-- Fuel-driven floor of the base-2 logarithm on `ℕ` (fuel version so that the
kernel can evaluate it). -/
def lg2Aux : Nat → Nat → Nat
  | 0, _ => 0
  | fuel+1, n => if n < 2 then 0 else lg2Aux fuel (n / 2) + 1

/-- `lg2 n` is `⌊log₂ n⌋` for `n ≥ 1`. -/
def lg2 (n : Nat) : Nat := lg2Aux n n

/-- `floorLog2 q` is the exponent `e` with `2^e ≤ q < 2^(e+1)` (for `q > 0`). -/
def floorLog2 (q : ℚ) : ℤ :=
  let a := q.num.toNat
  let b := q.den
  let e0 : ℤ := (lg2 a : ℤ) - (lg2 b : ℤ)
  if (2 : ℚ) ^ e0 ≤ q then e0 else e0 - 1

/-- Round a rational to the nearest integer, ties to even (IEEE-754 default
rounding of a value halfway between two representable numbers). -/
def rhe (x : ℚ) : ℤ :=
  if Int.fract x < 1/2 then ⌊x⌋
  else if 1/2 < Int.fract x then ⌊x⌋ + 1
  else if Even ⌊x⌋ then ⌊x⌋ else ⌊x⌋ + 1

/-- Rounding of a positive rational to 53 significant binary digits. -/
def rdPos (q : ℚ) : ℚ :=
  let e := floorLog2 q
  (rhe (q * 2 ^ (52 - e)) : ℚ) * 2 ^ (e - 52)

/-- IEEE-754 binary64 rounding (round to nearest, ties to even), as an exact
map on dyadic rationals.  Normal range only: exponent over/underflow is not
modelled (irrelevant for every value these claims reach). -/
def rd (q : ℚ) : ℚ :=
  if q = 0 then 0 else if q < 0 then - rdPos (-q) else rdPos q

/-- Python `int(x)` on a float: truncation toward zero. -/
def pyTrunc (q : ℚ) : ℤ := if q < 0 then -⌊-q⌋ else ⌊q⌋

/-- `q` is exactly representable with at most 53 significant bits
(`q = k·2^t`, `0 ≤ k < 2^53`).  Nonnegative binary64 values are of this form. -/
def Repr53 (q : ℚ) : Prop := ∃ (k : ℕ) (t : ℤ), k < 2 ^ 53 ∧ q = (k : ℚ) * 2 ^ t

/-! ### Python string helpers (ASCII) -/

/-- Characters matched by Python's `\s` (ASCII) and stripped by `str.strip()`. -/
def pySpace (c : Char) : Bool :=
  c = ' ' || c = '\t' || c = '\n' || c = '\r' || c = '\x0b' || c = '\x0c'

/-- `str.split(sep)` for a single-character separator. -/
def splitOnChar (sep : Char) : List Char → List (List Char)
  | [] => [[]]
  | c :: r =>
    match splitOnChar sep r with
    | [] => [[c]]
    | h :: t => if c = sep then [] :: h :: t else (c :: h) :: t

/-- `str.strip()` (ASCII whitespace). -/
def pyStrip (l : List Char) : List Char :=
  ((l.dropWhile pySpace).reverse.dropWhile pySpace).reverse

/-- Decimal digits of a natural number, most significant first (fuel version). -/
def natDigitsAux : Nat → Nat → List Char
  | 0, _ => []
  | fuel+1, n =>
    if n < 10 then [Char.ofNat (48 + n)]
    else natDigitsAux fuel (n / 10) ++ [Char.ofNat (48 + n % 10)]

/-- Decimal representation of a natural number, as Python's `str`. -/
def natDigits (n : Nat) : List Char := natDigitsAux (n + 1) n

/-- Left-pad with `'0'` to width `w`. -/
def leftPad (w : Nat) (l : List Char) : List Char :=
  List.replicate (w - l.length) '0' ++ l

/-- Python's `f"{n:0wd}"`: zero-padded decimal of an integer (sign first). -/
def zpad (w : Nat) (n : ℤ) : List Char :=
  if n < 0 then '-' :: leftPad (w - 1) (natDigits n.natAbs) else leftPad w (natDigits n.toNat)

/-- Numeric value of a list of decimal digit characters. -/
def natVal (l : List Char) : ℕ :=
  l.foldl (fun a c => 10 * a + (c.toNat - 48)) 0

/-- Python `float(s)` on the decimal literals reachable here
(`D+`, `D+.D*`, `.D+` — no sign, exponent, `inf`/`nan` or underscores, which
never occur in the strings this program feeds to `float`): the exact decimal
value, correctly rounded to binary64. -/
def pyFloat (l : List Char) : Option ℚ :=
  let ip := l.takeWhile Char.isDigit
  let r1 := l.dropWhile Char.isDigit
  match r1 with
  | [] => if ip.isEmpty then none else some (rd (natVal ip))
  | '.' :: r2 =>
    let fp := r2.takeWhile Char.isDigit
    let r3 := r2.dropWhile Char.isDigit
    if r3.isEmpty then
      if ip.isEmpty && fp.isEmpty then none
      else some (rd ((natVal ip : ℚ) + (natVal fp : ℚ) / 10 ^ fp.length))
    else none
  | _ => none

/-! ### The timestamp regex

`re.search(r'\[(\d+:\d+\.\d+)\s*->\s*(\d+:\d+\.\d+)\]', line)`.

Because `\d`, `\s`, `:`, `.`, `-`, `]` are pairwise disjoint character
classes, greedy matching with no backtracking is equivalent to Python's
backtracking engine on this pattern, and `re.search` tries successive start
positions left to right. -/

/-- Match `\d+:\d+\.\d+` at the head of the input; return the matched group
and the rest. -/
def matchTimeGroup (l : List Char) : Option (List Char × List Char) :=
  let d1 := l.takeWhile Char.isDigit
  let r1 := l.dropWhile Char.isDigit
  if d1.isEmpty then none
  else
    match r1 with
    | ':' :: r2 =>
      let d2 := r2.takeWhile Char.isDigit
      let r3 := r2.dropWhile Char.isDigit
      if d2.isEmpty then none
      else
        match r3 with
        | '.' :: r4 =>
          let d3 := r4.takeWhile Char.isDigit
          let r5 := r4.dropWhile Char.isDigit
          if d3.isEmpty then none
          else some (d1 ++ ':' :: (d2 ++ '.' :: d3), r5)
        | _ => none
    | _ => none

/-- Match the whole pattern `\[(\d+:\d+\.\d+)\s*->\s*(\d+:\d+\.\d+)\]` at the
head of the input; return the two captured groups. -/
def matchTimesAt (l : List Char) : Option (List Char × List Char) :=
  match l with
  | '[' :: r0 =>
    match matchTimeGroup r0 with
    | none => none
    | some (g1, r1) =>
      match r1.dropWhile pySpace with
      | '-' :: '>' :: r3 =>
        match matchTimeGroup (r3.dropWhile pySpace) with
        | none => none
        | some (g2, r5) =>
          match r5 with
          | ']' :: _ => some (g1, g2)
          | _ => none
      | _ => none
  | _ => none

/-- `re.search` of the timestamp pattern: leftmost match. -/
def searchTimes : List Char → Option (List Char × List Char)
  | [] => none
  | c :: rest =>
    match matchTimesAt (c :: rest) with
    | some r => some r
    | none => searchTimes rest

/-- For `re.sub(r'\[.*?\]', '', line)`: from a position just after `'['`, find
the first `']'` (the non-greedy `.*?` stops there; `.` does not match a
newline, so a newline before the first `']'` kills the match). -/
def findClose : List Char → Option (List Char)
  | [] => none
  | ']' :: r => some r
  | '\n' :: _ => none
  | _ :: r => findClose r

/-- `re.sub(r'\[.*?\]', '', l)`: delete every non-overlapping `[...]` token,
scanning left to right (fuel version; `findClose` returns a suffix). -/
def subBracketsAux : Nat → List Char → List Char
  | 0, l => l
  | _+1, [] => []
  | fuel+1, c :: rest =>
    if c = '[' then
      match findClose rest with
      | some rest2 => subBracketsAux fuel rest2
      | none => c :: subBracketsAux fuel rest
    else c :: subBracketsAux fuel rest

/-- `re.sub(r'\[.*?\]', '', l)`. -/
def subBrackets (l : List Char) : List Char := subBracketsAux l.length l

namespace ConversionWorker

/-- `ConversionWorker._time_to_seconds`: split on `':'`, parse the two parts
as floats, return `max(0, m * 60 + s)`; `none` models the `ValueError` paths
(wrong number of parts, or an unparsable part). -/
def time_to_seconds (l : List Char) : Option ℚ :=
  match splitOnChar ':' l with
  | [m, s] =>
    match pyFloat m, pyFloat s with
    | some mv, some sv => some (max 0 (rd (rd (mv * 60) + sv)))
    | _, _ => none
  | _ => none

/-- `ConversionWorker._format_time`, numeric part: the `(hours, minutes,
seconds, milliseconds)` fields, computed exactly as the Python code does
(`int((x - int(x)) * 1000)` in binary64, then integer `divmod`s). -/
def fmtParts (x : ℚ) : ℤ × ℤ × ℤ × ℤ :=
  let ms := pyTrunc (rd (rd (x - (pyTrunc x : ℚ)) * 1000))
  let s0 := pyTrunc x
  let minutes0 := s0 / 60
  let seconds := s0 % 60
  let hours := minutes0 / 60
  let minutes := minutes0 % 60
  (hours, minutes, seconds, ms)

/-- `ConversionWorker._format_time`: `f"{h:02d}:{m:02d}:{s:02d},{ms:03d}"`. -/
def format_time (x : ℚ) : List Char :=
  let p := fmtParts x
  zpad 2 p.1 ++ ':' :: zpad 2 p.2.1 ++ ':' :: zpad 2 p.2.2.1 ++ ',' :: zpad 3 p.2.2.2

/-- The value (in seconds) denoted by the four formatted fields. -/
def timeDenote (p : ℤ × ℤ × ℤ × ℤ) : ℚ :=
  ((p.1 * 3600 + p.2.1 * 60 + p.2.2.1 : ℤ) : ℚ) + (p.2.2.2 : ℚ) / 1000

/-- The four formatted fields read as a number of milliseconds (comparison
of two formatted timestamps "as times"). -/
def timeVal (p : ℤ × ℤ × ℤ × ℤ) : ℤ :=
  ((p.1 * 60 + p.2.1) * 60 + p.2.2.1) * 1000 + p.2.2.2

/-- Outcome of the per-line body of `ConversionWorker._convert_file`. -/
inductive LineRes where
  | noMatch : LineRes
  | badTime : LineRes
  | skip : LineRes
  | cue (s e : ℚ) (text : List Char) : LineRes

/-- The per-line body of `ConversionWorker._convert_file` (also the body of
`SubtitleConverter._parse_subtitle_line`): regex search, timestamp parse
(`badTime` = the caught `ValueError`), `start >= end` and empty-text skips. -/
def convertLineE (line : List Char) : LineRes :=
  match searchTimes line with
  | none => .noMatch
  | some (g1, g2) =>
    match time_to_seconds g1, time_to_seconds g2 with
    | some s, some e =>
      if e ≤ s then .skip
      else
        let text := pyStrip (subBrackets line)
        if text.isEmpty then .skip else .cue s e text
    | _, _ => .badTime

/-- The Line Converter of the spec: one raw line to at most one cue
(start seconds, end seconds, text). -/
def convertLine (line : List Char) : Option (ℚ × ℚ × List Char) :=
  match convertLineE line with
  | .cue s e t => some (s, e, t)
  | _ => none

/-- An SRT cue as written by `_convert_file`. -/
structure Cue where
  index : ℕ
  start : ℚ
  stop : ℚ
  text : List Char
deriving DecidableEq

/-- The error message emitted on the (unreachable) `ValueError` branch:
`f"Invalid time format in line: {line.strip()}"`. -/
def invalidTimeMsg (line : List Char) : List Char :=
  "Invalid time format in line: ".data ++ pyStrip line

/-- The loop of `_convert_file` over the input lines.  Arguments: the
cancellation oracle `c` (the value of `_is_cancelled` at the `n`-th
mutex-guarded read of the whole run), the remaining lines, the running
`subtitle_index`, and the read counter.  Returns the cues written, the
error messages emitted, and the final read counter. -/
def convertFileAux (c : ℕ → Bool) :
    List (List Char) → ℕ → ℕ → List Cue × List (List Char) × ℕ
  | [], _, k => ([], [], k)
  | line :: rest, idx, k =>
    if c k then ([], [], k + 1)
    else
      match convertLineE line with
      | .noMatch => convertFileAux c rest idx (k + 1)
      | .skip => convertFileAux c rest idx (k + 1)
      | .badTime =>
        let r := convertFileAux c rest idx (k + 1)
        (r.1, invalidTimeMsg line :: r.2.1, r.2.2)
      | .cue s e text =>
        let r := convertFileAux c rest (idx + 1) (k + 1)
        (⟨idx, s, e, text⟩ :: r.1, r.2.1, r.2.2)

/-- The three `outfile.write` calls for one cue:
`f"{index}\n"`, `f"{start} --> {end}\n"`, `f"{text}\n\n"`. -/
def renderCue (cue : Cue) : List Char :=
  natDigits cue.index ++ '\n' ::
    (format_time cue.start ++ " --> ".data ++ format_time cue.stop ++ '\n' ::
      (cue.text ++ "\n\n".data))

/-- `ConversionWorker._convert_file`: cue numbering starts at 1 per file; the
output file is the concatenation of the rendered cues (written incrementally;
the file is truncated on open, so a cancelled conversion leaves the cues
written so far).  Returns (output bytes, emitted error messages, counter). -/
def convert_file (c : ℕ → Bool) (lines : List (List Char)) (k : ℕ) :
    List Char × List (List Char) × ℕ :=
  let r := convertFileAux c lines 1 k
  ((r.1.map renderCue).flatten, r.2.1, r.2.2)

end ConversionWorker

/-- The job description handed to the worker (`FileInfo` dataclass; the two
extra flags are not read by the worker). -/
structure FileInfo where
  input_path : String
  output_path : String
  is_default_output : Bool := true
  is_clipboard : Bool := false
deriving DecidableEq

/-- `os.path.basename` (POSIX): the part after the last `'/'`. -/
def basenameCh (l : List Char) : List Char :=
  (l.reverse.takeWhile (fun c => ¬ c = '/')).reverse

/-- `os.path.basename` on strings. -/
def basename (p : String) : String := String.mk (basenameCh p.data)

/-- `os.path.dirname` (POSIX): everything up to the last `'/'`, with trailing
slashes stripped unless the result is all slashes. -/
def dirnameCh (l : List Char) : List Char :=
  let rev := l.reverse
  let bn := rev.takeWhile (fun c => ¬ c = '/')
  let headRev := rev.drop bn.length
  if headRev.isEmpty then []
  else if headRev.all (fun c => c = '/') then headRev.reverse
  else (headRev.dropWhile (fun c => c = '/')).reverse

/-- `os.path.dirname` on strings. -/
def dirname (p : String) : String := String.mk (dirnameCh p.data)

/-- The filesystem as the worker observes it.  `file` answers both
`os.path.exists(input_path)` (`isSome`) and the line iteration of the opened
input file (lines keep their trailing newline, exactly as Python's file
iteration yields them); `dirExists`/`dirWritable` answer the checks on the
output directory; `mkdirOk`/`mkdirErrMsg` describe `os.makedirs` (whose error
message is OS-dependent). -/
structure FS where
  file : String → Option (List String)
  dirExists : String → Bool
  mkdirOk : String → Bool
  mkdirErrMsg : String → String
  dirWritable : String → Bool

namespace ConversionWorker

/-- The worker's outward signals: `progress` (percent, basename),
`error` (message), `finished`. -/
inductive Event where
  | progress (percent : ℤ) (fileLabel : String)
  | jobError (message : String)
  | done
deriving DecidableEq

/-- `int(((i + index) / total) * 100)`: the progress percentage, with the two
arithmetic steps performed in binary64 and truncated by `int()`. -/
def pyPercent (k total : ℕ) : ℤ :=
  pyTrunc (rd (rd ((k : ℚ) / (total : ℚ)) * 100))

/-- One iteration of the loop body of `ConversionWorker._process_batch` for
the job at overall 0-based position `k`: the existence / directory /
permission checks, the conversion, and the `progress` / `error` emissions.
Returns (events, files written, read counter). -/
def processJob (fs : FS) (fi : FileInfo) (k total : ℕ) (c : ℕ → Bool) (ctr : ℕ) :
    List Event × List (String × List Char) × ℕ :=
  match fs.file fi.input_path with
  | none =>
    ([.jobError (basename fi.input_path ++ ": Input file not found: " ++ fi.input_path)],
      [], ctr)
  | some lines =>
    let dir := dirname fi.output_path
    if !fs.dirExists dir && !fs.mkdirOk dir then
      ([.jobError (basename fi.input_path ++ ": " ++ fs.mkdirErrMsg dir)], [], ctr)
    else if !fs.dirWritable dir then
      ([.jobError (basename fi.input_path ++ ": No write permission for output directory: "
          ++ dir)], [], ctr)
    else
      let r := convert_file c (lines.map String.data) ctr
      (r.2.1.map (fun m => Event.jobError (String.mk m))
          ++ [.progress (pyPercent k total) (basename fi.input_path)],
        [(fi.output_path, r.1)], r.2.2)

/-- `ConversionWorker._process_batch`: the jobs of one batch in order;
`k` is `index + i`, the overall 0-based position of the next job. -/
def process_batch (fs : FS) :
    List FileInfo → ℕ → ℕ → (ℕ → Bool) → ℕ → List Event × List (String × List Char) × ℕ
  | [], _, _, _, ctr => ([], [], ctr)
  | fi :: rest, k, total, c, ctr =>
    let r1 := processJob fs fi k total c ctr
    let r2 := process_batch fs rest (k + 1) total c r1.2.2
    (r1.1 ++ r2.1, r1.2.1 ++ r2.2.1, r2.2.2)

/-- `ConversionWorker._process_files_in_batches`: `for i in range(0, total,
batch_size)` with the mutex-guarded cancellation check at the top of each
iteration (`break` on cancellation).  Fuel = number of remaining files, an
upper bound on the remaining iterations for `batch_size ≥ 1`. -/
def process_files_in_batches (fs : FS) :
    ℕ → List FileInfo → ℕ → ℕ → ℕ → (ℕ → Bool) → ℕ →
      List Event × List (String × List Char) × ℕ
  | _, [], _, _, _, _, ctr => ([], [], ctr)
  | 0, _, _, _, _, _, ctr => ([], [], ctr)
  | fuel + 1, rem, index, total, bs, c, ctr =>
    if c ctr then ([], [], ctr + 1)
    else
      let r1 := process_batch fs (rem.take bs) index total c (ctr + 1)
      let r2 := process_files_in_batches fs fuel (rem.drop bs) (index + bs) total bs c r1.2.2
      (r1.1 ++ r2.1, r1.2.1 ++ r2.2.1, r2.2.2)

/-- `ConversionWorker.run`: processes all batches, then emits `finished`
exactly once (the `finally` clause).  A `batch_size` of 0 makes Python's
`range` raise; `run` catches it and emits the message on the error signal.
The cancellation oracle `c` gives the flag value at the `n`-th guarded read. -/
def run (fs : FS) (input_files : List FileInfo) (batch_size : ℕ) (c : ℕ → Bool) :
    List Event × List (String × List Char) :=
  if batch_size = 0 then
    ([.jobError "range() arg 3 must not be zero", .done], [])
  else
    let r := process_files_in_batches fs input_files.length input_files 0
      input_files.length batch_size c 0
    (r.1 ++ [.done], r.2.1)

end ConversionWorker

/-- The shape of a group captured by `(\\d+:\\d+\\.\\d+)`: one or more digits,
a colon, one or more digits, a dot, one or more digits. -/
def TimeGroup (g : List Char) : Prop :=
  ∃ d1 d2 d3 : List Char, d1 ≠ [] ∧ d2 ≠ [] ∧ d3 ≠ [] ∧
    (∀ c ∈ d1, c.isDigit = true) ∧ (∀ c ∈ d2, c.isDigit = true) ∧
    (∀ c ∈ d3, c.isDigit = true) ∧ g = d1 ++ ':' :: (d2 ++ '.' :: d3)

/-! ### Concrete jobs and filesystems used to exercise the runner -/

/-- A job whose input file exists and holds no lines. -/
def jobA : FileInfo := { input_path := "/in/a.txt", output_path := "/out/a.srt" }

/-- The filesystem for runs made of copies of `jobA`: one empty input file,
every directory present and writable. -/
def fsA : FS where
  file := fun p => if p = "/in/a.txt" then some [] else none
  dirExists := fun _ => true
  mkdirOk := fun _ => true
  mkdirErrMsg := fun _ => ""
  dirWritable := fun _ => true

/-- Five jobs over five distinct one-line transcripts. -/
def jobsB : List FileInfo :=
  [{ input_path := "/in/a.txt", output_path := "/out/a.srt" },
   { input_path := "/in/b.txt", output_path := "/out/b.srt" },
   { input_path := "/in/c.txt", output_path := "/out/c.srt" },
   { input_path := "/in/d.txt", output_path := "/out/d.srt" },
   { input_path := "/in/e.txt", output_path := "/out/e.srt" }]

/-- The filesystem for `jobsB`: each of the five input files holds the same
single transcript line. -/
def fsB : FS where
  file := fun p =>
    if p = "/in/a.txt" ∨ p = "/in/b.txt" ∨ p = "/in/c.txt"
        ∨ p = "/in/d.txt" ∨ p = "/in/e.txt"
    then some ["[0:01.200 -> 0:03.500] Hello world\n"] else none
  dirExists := fun _ => true
  mkdirOk := fun _ => true
  mkdirErrMsg := fun _ => ""
  dirWritable := fun _ => true

/-- A cancellation flag first observed set at the second guarded read: the
flag is raised while the first job's only line is being converted. -/
def cancelB : ℕ → Bool := fun n => decide (2 ≤ n)

/-- Three jobs, the second one over an input file that does not exist. -/
def jobC1 : FileInfo := { input_path := "/in/a.txt", output_path := "/out/a.srt" }

def jobC2 : FileInfo := { input_path := "/in/b.txt", output_path := "/out/b.srt" }

def jobC3 : FileInfo := { input_path := "/in/c.txt", output_path := "/out/c.srt" }

/-- The filesystem for `jobC1`/`jobC2`/`jobC3`: the first and third input
files exist (and are empty), the second is missing. -/
def fsC : FS where
  file := fun p => if p = "/in/a.txt" ∨ p = "/in/c.txt" then some [] else none
  dirExists := fun _ => true
  mkdirOk := fun _ => true
  mkdirErrMsg := fun _ => ""
  dirWritable := fun _ => true

/-! ### Properties of the binary64 rounding model -/

theorem lg2Aux_spec : ∀ fuel n, 1 ≤ n → n ≤ fuel →
    2 ^ lg2Aux fuel n ≤ n ∧ n < 2 ^ (lg2Aux fuel n + 1) := by
  intro fuel
  induction fuel with
  | zero => intro n h1 h2; omega
  | succ f ih =>
    intro n h1 h2
    rw [lg2Aux]
    by_cases h : n < 2
    · simp only [h, if_true]
      have hn : n = 1 := by omega
      subst hn; norm_num
    · simp only [h, if_false]
      obtain ⟨ha, hb⟩ := ih (n / 2) (by omega) (by omega)
      refine ⟨?_, ?_⟩
      · rw [pow_succ]; omega
      · rw [pow_succ]; omega

theorem lg2_spec (n : ℕ) (h : 1 ≤ n) : 2 ^ lg2 n ≤ n ∧ n < 2 ^ (lg2 n + 1) :=
  lg2Aux_spec n n h le_rfl

theorem floorLog2_spec (q : ℚ) (hq : 0 < q) :
    (2 : ℚ) ^ floorLog2 q ≤ q ∧ q < 2 ^ (floorLog2 q + 1) := by
  have hnum : 0 < q.num := Rat.num_pos.2 hq
  have hb0 : 0 < q.den := q.pos
  obtain ⟨ha2, ha3⟩ := lg2_spec q.num.toNat (by omega)
  obtain ⟨hb2, hb3⟩ := lg2_spec q.den (by omega)
  have hbQ : (0 : ℚ) < (q.den : ℚ) := by exact_mod_cast hb0
  have hqb : q * (q.den : ℚ) = (q.num.toNat : ℚ) := by
    have h1 : ((q.num.toNat : ℤ) : ℚ) = (q.num : ℚ) := by
      exact_mod_cast congrArg (fun z : ℤ => (z : ℚ)) (Int.toNat_of_nonneg hnum.le)
    push_cast at h1 ⊢
    rw [h1]
    have h3 := Rat.num_div_den q
    rw [div_eq_iff (ne_of_gt hbQ)] at h3
    exact h3.symm
  have hcast : ∀ m : ℕ, ((2 ^ m : ℕ) : ℚ) = (2 : ℚ) ^ (m : ℤ) := by
    intro m; push_cast [zpow_natCast]; rfl
  -- strict upper bound at exponent la + 1 - lb
  have hupper : q < (2 : ℚ) ^ ((lg2 q.num.toNat : ℤ) + 1 - (lg2 q.den : ℤ)) := by
    have h1 : q * (2 : ℚ) ^ ((lg2 q.den : ℤ)) ≤ q * (q.den : ℚ) := by
      refine mul_le_mul_of_nonneg_left ?_ hq.le
      rw [← hcast]; exact_mod_cast hb2
    have h2 : (q.num.toNat : ℚ) < (2 : ℚ) ^ ((lg2 q.num.toNat : ℤ) + 1) := by
      rw [show ((lg2 q.num.toNat : ℤ) + 1) = ((lg2 q.num.toNat + 1 : ℕ) : ℤ) by push_cast; ring,
        ← hcast]
      exact_mod_cast ha3
    have h3 : q * (2 : ℚ) ^ ((lg2 q.den : ℤ)) < (2 : ℚ) ^ ((lg2 q.num.toNat : ℤ) + 1) :=
      lt_of_le_of_lt (hqb ▸ h1) h2
    have h4 : (0 : ℚ) < (2 : ℚ) ^ ((lg2 q.den : ℤ)) := zpow_pos (by norm_num) _
    rw [zpow_sub₀ (two_ne_zero), lt_div_iff₀ h4]
    exact h3
  -- strict lower bound at exponent la - lb - 1
  have hlower : (2 : ℚ) ^ ((lg2 q.num.toNat : ℤ) - (lg2 q.den : ℤ) - 1) < q := by
    have h1 : (2 : ℚ) ^ ((lg2 q.num.toNat : ℤ)) ≤ (q.num.toNat : ℚ) := by
      rw [← hcast]; exact_mod_cast ha2
    have h2 : (q.den : ℚ) < (2 : ℚ) ^ ((lg2 q.den : ℤ) + 1) := by
      rw [show ((lg2 q.den : ℤ) + 1) = ((lg2 q.den + 1 : ℕ) : ℤ) by push_cast; ring, ← hcast]
      exact_mod_cast hb3
    have h5 : (0 : ℚ) < (2 : ℚ) ^ ((lg2 q.den : ℤ) + 1) := zpow_pos (by norm_num) _
    rw [show (lg2 q.num.toNat : ℤ) - (lg2 q.den : ℤ) - 1
        = (lg2 q.num.toNat : ℤ) - ((lg2 q.den : ℤ) + 1) by ring,
      zpow_sub₀ (two_ne_zero), div_lt_iff₀ h5]
    calc (2:ℚ) ^ ((lg2 q.num.toNat : ℤ))
        ≤ (q.num.toNat : ℚ) := h1
      _ = q * (q.den : ℚ) := hqb.symm
      _ < q * (2 : ℚ) ^ ((lg2 q.den : ℤ) + 1) := by
          exact mul_lt_mul_of_pos_left h2 hq
  rw [floorLog2]
  by_cases hif : (2 : ℚ) ^ ((lg2 q.num.toNat : ℤ) - (lg2 q.den : ℤ)) ≤ q
  · rw [if_pos hif]
    exact ⟨hif, by
      have := hupper
      rw [show (lg2 q.num.toNat : ℤ) - (lg2 q.den : ℤ) + 1
          = (lg2 q.num.toNat : ℤ) + 1 - (lg2 q.den : ℤ) by ring]
      exact this⟩
  · rw [if_neg hif]
    refine ⟨hlower.le, ?_⟩
    rw [show (lg2 q.num.toNat : ℤ) - (lg2 q.den : ℤ) - 1 + 1
        = (lg2 q.num.toNat : ℤ) - (lg2 q.den : ℤ) by ring]
    exact lt_of_not_le hif

theorem rhe_intCast (n : ℤ) : rhe (n : ℚ) = n := by
  rw [rhe, Int.fract_intCast]
  norm_num

theorem floor_le_rhe (x : ℚ) : ⌊x⌋ ≤ rhe x := by
  rw [rhe]
  split_ifs <;> omega

theorem rhe_le_floor_add_one (x : ℚ) : rhe x ≤ ⌊x⌋ + 1 := by
  rw [rhe]
  split_ifs <;> omega

theorem rhe_le_ceil (x : ℚ) : rhe x ≤ ⌈x⌉ := by
  by_cases h : Int.fract x < 1/2
  · rw [rhe, if_pos h]
    exact Int.floor_le_ceil x
  · have hfr : 0 < Int.fract x := lt_of_lt_of_le (by norm_num) (not_lt.1 h)
    have hx : (⌊x⌋ : ℚ) < x := by
      have := Int.self_sub_floor x
      nlinarith [Int.fract_nonneg x]
    have hic : ⌊x⌋ < ⌈x⌉ := by
      have h2 : (⌊x⌋ : ℚ) < (⌈x⌉ : ℚ) := lt_of_lt_of_le hx (Int.le_ceil x)
      exact_mod_cast h2
    have := rhe_le_floor_add_one x
    omega

theorem rhe_err_le (x : ℚ) : (rhe x : ℚ) ≤ x + 1/2 := by
  have hfr := Int.self_sub_floor x
  have h0 := Int.fract_nonneg x
  have h1 := Int.fract_lt_one x
  rw [rhe]
  split_ifs with ha hb hc
  · nlinarith
  · push_cast
    nlinarith
  · nlinarith [le_of_not_lt ha, le_of_not_lt hb]
  · push_cast
    nlinarith [le_of_not_lt ha, le_of_not_lt hb]

theorem rhe_err_ge (x : ℚ) : x - 1/2 ≤ (rhe x : ℚ) := by
  have hfr := Int.self_sub_floor x
  have h0 := Int.fract_nonneg x
  have h1 := Int.fract_lt_one x
  rw [rhe]
  split_ifs with ha hb hc
  · nlinarith
  · push_cast
    nlinarith
  · nlinarith [le_of_not_lt ha, le_of_not_lt hb]
  · push_cast
    nlinarith [le_of_not_lt ha, le_of_not_lt hb]

theorem rhe_mono {x y : ℚ} (h : x ≤ y) : rhe x ≤ rhe y := by
  have hf : ⌊x⌋ ≤ ⌊y⌋ := Int.floor_le_floor h
  rcases lt_or_eq_of_le hf with hlt | heq
  · calc rhe x ≤ ⌊x⌋ + 1 := rhe_le_floor_add_one x
      _ ≤ ⌊y⌋ := by omega
      _ ≤ rhe y := floor_le_rhe y
  · have hfr : Int.fract x ≤ Int.fract y := by
      have h1 := Int.self_sub_floor x
      have h2 := Int.self_sub_floor y
      have : (⌊x⌋ : ℚ) = (⌊y⌋ : ℚ) := by exact_mod_cast heq
      nlinarith
    rw [rhe, rhe, ← heq]
    split_ifs with a1 a2 a3 a4 a5 a6 a7 <;> first | omega | linarith

theorem two_zpow_natCast (m : ℕ) : ((2 ^ m : ℤ) : ℚ) = (2 : ℚ) ^ (m : ℤ) := by
  rw [zpow_natCast]
  push_cast
  rfl

theorem two_zpow_add (a b : ℤ) : (2 : ℚ) ^ (a + b) = 2 ^ a * 2 ^ b :=
  zpow_add₀ two_ne_zero a b

theorem two_pow_natCast_q (m : ℕ) : ((2 ^ m : ℕ) : ℚ) = (2 : ℚ) ^ (m : ℤ) := by
  rw [zpow_natCast]
  push_cast
  rfl

theorem scaled_lb (q : ℚ) (hq : 0 < q) :
    (2 : ℚ) ^ (52 : ℤ) ≤ q * 2 ^ (52 - floorLog2 q) := by
  obtain ⟨h1, _⟩ := floorLog2_spec q hq
  have hp : (0 : ℚ) < 2 ^ (52 - floorLog2 q) := zpow_pos (by norm_num) _
  have h2 : (2:ℚ) ^ (52:ℤ) = 2 ^ (floorLog2 q) * 2 ^ (52 - floorLog2 q) := by
    rw [← two_zpow_add]
    congr 1
    ring
  rw [h2]
  exact mul_le_mul_of_nonneg_right h1 hp.le

theorem scaled_ub (q : ℚ) (hq : 0 < q) :
    q * 2 ^ (52 - floorLog2 q) < 2 ^ (53 : ℤ) := by
  obtain ⟨_, h2⟩ := floorLog2_spec q hq
  have hp : (0 : ℚ) < 2 ^ (52 - floorLog2 q) := zpow_pos (by norm_num) _
  have h3 : (2:ℚ) ^ (53:ℤ) = 2 ^ (floorLog2 q + 1) * 2 ^ (52 - floorLog2 q) := by
    rw [← two_zpow_add]
    congr 1
    ring
  rw [h3]
  exact mul_lt_mul_of_pos_right h2 hp

theorem rdPos_mul_cancel (q : ℚ) :
    q * 2 ^ (52 - floorLog2 q) * 2 ^ (floorLog2 q - 52) = q := by
  rw [mul_assoc, ← two_zpow_add, show 52 - floorLog2 q + (floorLog2 q - 52) = (0:ℤ) by ring,
    zpow_zero, mul_one]

theorem rd_pos_eq (q : ℚ) (hq : 0 < q) : rd q = rdPos q := by
  rw [rd, if_neg (ne_of_gt hq), if_neg (not_lt.2 hq.le)]

theorem half_zpow (q : ℚ) :
    (1 : ℚ) / 2 * 2 ^ (floorLog2 q - 52) = 2 ^ (floorLog2 q - 53) := by
  rw [show (1:ℚ)/2 = 2 ^ (-1 : ℤ) by norm_num, ← two_zpow_add,
    show -1 + (floorLog2 q - 52) = floorLog2 q - 53 by ring]

theorem zpow_sub53_le (q : ℚ) (hq : 0 < q) :
    (2 : ℚ) ^ (floorLog2 q - 53) ≤ q / 2 ^ 53 := by
  have hle := (floorLog2_spec q hq).1
  have h4 : (2:ℚ) ^ (floorLog2 q - 53) = 2 ^ (floorLog2 q) * 2 ^ (-53 : ℤ) := by
    rw [← two_zpow_add, show floorLog2 q + -53 = floorLog2 q - 53 by ring]
  rw [h4, div_eq_mul_inv, ← zpow_natCast (2:ℚ) 53, ← zpow_neg]
  exact mul_le_mul_of_nonneg_right hle (zpow_pos (by norm_num) _).le

theorem rd_le_upper (q : ℚ) (hq : 0 ≤ q) : rd q ≤ q + q / 2 ^ 53 := by
  rcases eq_or_lt_of_le hq with h0 | hpos
  · rw [← h0, rd, if_pos rfl]
    norm_num
  · rw [rd_pos_eq q hpos, rdPos]
    have hup := rhe_err_le (q * 2 ^ (52 - floorLog2 q))
    have hp : (0 : ℚ) < 2 ^ (floorLog2 q - 52) := zpow_pos (by norm_num) _
    have h1 : (rhe (q * 2 ^ (52 - floorLog2 q)) : ℚ) * 2 ^ (floorLog2 q - 52) ≤
        (q * 2 ^ (52 - floorLog2 q) + 1/2) * 2 ^ (floorLog2 q - 52) :=
      mul_le_mul_of_nonneg_right hup hp.le
    have h2 : (q * 2 ^ (52 - floorLog2 q) + 1/2) * 2 ^ (floorLog2 q - 52)
        = q + 2 ^ (floorLog2 q - 53) := by
      rw [add_mul, rdPos_mul_cancel, half_zpow]
    have h3 := zpow_sub53_le q hpos
    have h4 := h2 ▸ h1
    linarith

theorem rd_ge_lower (q : ℚ) (hq : 0 ≤ q) : q - q / 2 ^ 53 ≤ rd q := by
  rcases eq_or_lt_of_le hq with h0 | hpos
  · rw [← h0, rd, if_pos rfl]
    norm_num
  · rw [rd_pos_eq q hpos, rdPos]
    have hlo := rhe_err_ge (q * 2 ^ (52 - floorLog2 q))
    have hp : (0 : ℚ) < 2 ^ (floorLog2 q - 52) := zpow_pos (by norm_num) _
    have h1 : (q * 2 ^ (52 - floorLog2 q) - 1/2) * 2 ^ (floorLog2 q - 52) ≤
        (rhe (q * 2 ^ (52 - floorLog2 q)) : ℚ) * 2 ^ (floorLog2 q - 52) :=
      mul_le_mul_of_nonneg_right hlo hp.le
    have h2 : (q * 2 ^ (52 - floorLog2 q) - 1/2) * 2 ^ (floorLog2 q - 52)
        = q - 2 ^ (floorLog2 q - 53) := by
      rw [sub_mul, rdPos_mul_cancel, half_zpow]
    have h3 := zpow_sub53_le q hpos
    have h4 := h2 ▸ h1
    linarith

theorem rd_nonneg (q : ℚ) (hq : 0 ≤ q) : 0 ≤ rd q := by
  have h1 := rd_ge_lower q hq
  have h2 : q / 2 ^ 53 ≤ q := div_le_self hq (by norm_num)
  linarith

theorem two_zpow52 : (2 : ℚ) ^ (52 : ℤ) = ((2 ^ 52 : ℤ) : ℚ) := by norm_num

theorem two_zpow53 : (2 : ℚ) ^ (53 : ℤ) = ((2 ^ 53 : ℤ) : ℚ) := by norm_num

theorem floorLog2_mono {x y : ℚ} (hx : 0 < x) (h : x ≤ y) : floorLog2 x ≤ floorLog2 y := by
  by_contra hc
  push_neg at hc
  have h1 : floorLog2 y + 1 ≤ floorLog2 x := hc
  have h2 : (2:ℚ) ^ (floorLog2 y + 1) ≤ 2 ^ (floorLog2 x) := zpow_le_zpow_right₀ one_le_two h1
  have h3 := (floorLog2_spec y (lt_of_lt_of_le hx h)).2
  have h4 := (floorLog2_spec x hx).1
  linarith

theorem rd_mono {x y : ℚ} (hx : 0 ≤ x) (h : x ≤ y) : rd x ≤ rd y := by
  rcases eq_or_lt_of_le hx with h0 | hxpos
  · rw [← h0, rd, if_pos rfl]
    exact rd_nonneg y (by linarith)
  · have hy : 0 < y := lt_of_lt_of_le hxpos h
    rw [rd_pos_eq x hxpos, rd_pos_eq y hy]
    have he : floorLog2 x ≤ floorLog2 y := floorLog2_mono hxpos h
    rcases eq_or_lt_of_le he with heq | hlt
    · rw [rdPos, rdPos, ← heq]
      have h1 : x * 2 ^ (52 - floorLog2 x) ≤ y * 2 ^ (52 - floorLog2 x) :=
        mul_le_mul_of_nonneg_right h (zpow_pos (by norm_num) _).le
      have h2 : ((rhe (x * 2 ^ (52 - floorLog2 x)) : ℤ) : ℚ)
          ≤ ((rhe (y * 2 ^ (52 - floorLog2 x)) : ℤ) : ℚ) := by
        exact_mod_cast rhe_mono h1
      exact mul_le_mul_of_nonneg_right h2 (zpow_pos (by norm_num) _).le
    · -- different binades: rdPos x ≤ 2^(ex+1) ≤ 2^ey ≤ rdPos y
      have hub : rdPos x ≤ 2 ^ (floorLog2 x + 1) := by
        rw [rdPos]
        have hs2 := scaled_ub x hxpos
        have hcl : rhe (x * 2 ^ (52 - floorLog2 x)) ≤ (2 ^ 53 : ℤ) := by
          refine le_trans (rhe_le_ceil _) (Int.ceil_le.2 ?_)
          rw [two_zpow_natCast]
          exact hs2.le
        have hclQ : ((rhe (x * 2 ^ (52 - floorLog2 x)) : ℤ) : ℚ) ≤ 2 ^ (53 : ℤ) := by
          rw [two_zpow53]
          exact_mod_cast hcl
        have h5 : ((rhe (x * 2 ^ (52 - floorLog2 x)) : ℤ) : ℚ) * 2 ^ (floorLog2 x - 52)
            ≤ 2 ^ (53:ℤ) * 2 ^ (floorLog2 x - 52) :=
          mul_le_mul_of_nonneg_right hclQ (zpow_pos (by norm_num) _).le
        calc ((rhe (x * 2 ^ (52 - floorLog2 x)) : ℤ) : ℚ) * 2 ^ (floorLog2 x - 52)
            ≤ 2 ^ (53:ℤ) * 2 ^ (floorLog2 x - 52) := h5
          _ = 2 ^ (floorLog2 x + 1) := by
              rw [← two_zpow_add, show (53 : ℤ) + (floorLog2 x - 52) = floorLog2 x + 1 by ring]
      have hmid : (2:ℚ) ^ (floorLog2 x + 1) ≤ 2 ^ (floorLog2 y) :=
        zpow_le_zpow_right₀ one_le_two (by omega)
      have hlb : (2:ℚ) ^ (floorLog2 y) ≤ rdPos y := by
        rw [rdPos]
        have hs1 := scaled_lb y hy
        have hfl : (2 ^ 52 : ℤ) ≤ ⌊y * 2 ^ (52 - floorLog2 y)⌋ := by
          refine Int.le_floor.2 ?_
          rw [two_zpow_natCast]
          exact hs1
        have hrQ : (2:ℚ) ^ (52:ℤ) ≤ ((rhe (y * 2 ^ (52 - floorLog2 y)) : ℤ) : ℚ) := by
          rw [two_zpow52]
          exact_mod_cast le_trans hfl (floor_le_rhe _)
        have h6 : (2:ℚ) ^ (52:ℤ) * 2 ^ (floorLog2 y - 52)
            ≤ ((rhe (y * 2 ^ (52 - floorLog2 y)) : ℤ) : ℚ) * 2 ^ (floorLog2 y - 52) :=
          mul_le_mul_of_nonneg_right hrQ (zpow_pos (by norm_num) _).le
        calc (2:ℚ) ^ (floorLog2 y)
            = 2 ^ (52:ℤ) * 2 ^ (floorLog2 y - 52) := by
              rw [← two_zpow_add, show (52 : ℤ) + (floorLog2 y - 52) = floorLog2 y by ring]
          _ ≤ ((rhe (y * 2 ^ (52 - floorLog2 y)) : ℤ) : ℚ) * 2 ^ (floorLog2 y - 52) := h6
      linarith

theorem intCast_toNat_q (n : ℤ) (h : 0 ≤ n) : ((n.toNat : ℕ) : ℚ) = (n : ℚ) := by
  exact_mod_cast congrArg (fun z : ℤ => (z : ℚ)) (Int.toNat_of_nonneg h)

theorem rd_fix (q : ℚ) (hq : 0 < q) (h : Repr53 q) : rd q = q := by
  obtain ⟨k, t, hk, hqe⟩ := h
  have htp : (0:ℚ) < 2 ^ t := zpow_pos (by norm_num) _
  have he : floorLog2 q ≤ t + 52 := by
    by_contra hc
    push_neg at hc
    have h1 : t + 53 ≤ floorLog2 q := by omega
    have h2 : (2:ℚ) ^ (t + 53) ≤ 2 ^ (floorLog2 q) := zpow_le_zpow_right₀ one_le_two h1
    have h3 := (floorLog2_spec q hq).1
    have h4 : q < (2:ℚ) ^ (t + 53) := by
      rw [hqe, show t + 53 = (53:ℤ) + t by ring, two_zpow_add]
      refine mul_lt_mul_of_pos_right ?_ htp
      rw [two_zpow53]
      exact_mod_cast hk
    linarith
  set m : ℕ := (t + 52 - floorLog2 q).toNat with hmdef
  have hm : (m : ℤ) = t + 52 - floorLog2 q := Int.toNat_of_nonneg (by omega)
  have hs : q * 2 ^ (52 - floorLog2 q) = ((k * 2 ^ m : ℕ) : ℚ) := by
    symm
    push_cast
    rw [← zpow_natCast (2:ℚ) m, hm,
      show t + 52 - floorLog2 q = t + (52 - floorLog2 q) by ring, two_zpow_add,
      ← mul_assoc, ← hqe]
  rw [rd_pos_eq q hq, rdPos, hs]
  have hc2 : ((k * 2 ^ m : ℕ) : ℚ) = (((k * 2 ^ m : ℕ) : ℤ) : ℚ) := by
    push_cast
    ring
  have hrh : rhe ((k * 2 ^ m : ℕ) : ℚ) = ((k * 2 ^ m : ℕ) : ℤ) := by
    rw [hc2]
    exact rhe_intCast _
  rw [hrh]
  push_cast
  rw [mul_assoc, ← zpow_natCast (2:ℚ) m, ← two_zpow_add, hm,
    show t + 52 - floorLog2 q + (floorLog2 q - 52) = t by ring, hqe]

theorem rd_repr53 (q : ℚ) (hq : 0 ≤ q) : Repr53 (rd q) := by
  rcases eq_or_lt_of_le hq with h0 | hpos
  · rw [← h0, rd, if_pos rfl]
    exact ⟨0, 0, by norm_num, by simp⟩
  · rw [rd_pos_eq q hpos, rdPos]
    have hs2 := scaled_ub q hpos
    have hR0 : 0 ≤ rhe (q * 2 ^ (52 - floorLog2 q)) := by
      refine le_trans ?_ (floor_le_rhe _)
      refine Int.floor_nonneg.2 ?_
      have h1 : (0:ℚ) < 2 ^ (52 - floorLog2 q) := zpow_pos (by norm_num) _
      positivity
    have hRle : rhe (q * 2 ^ (52 - floorLog2 q)) ≤ (2 ^ 53 : ℤ) := by
      refine le_trans (rhe_le_ceil _) (Int.ceil_le.2 ?_)
      rw [two_zpow_natCast]
      exact hs2.le
    rcases lt_or_eq_of_le hRle with hRlt | hReq
    · refine ⟨(rhe (q * 2 ^ (52 - floorLog2 q))).toNat, floorLog2 q - 52, by omega, ?_⟩
      rw [intCast_toNat_q _ hR0]
    · refine ⟨2 ^ 52, floorLog2 q - 51, by norm_num, ?_⟩
      rw [hReq, two_zpow_natCast, two_pow_natCast_q, ← two_zpow_add, ← two_zpow_add]
      congr 1
      omega

theorem rd_intCast_fix (n : ℤ) (h0 : 0 ≤ n) (h : n < 2 ^ 53) : rd (n : ℚ) = n := by
  rcases eq_or_lt_of_le h0 with hz | hpos
  · rw [← hz]
    rw [show ((0:ℤ):ℚ) = 0 by norm_num, rd, if_pos rfl]
  · refine rd_fix _ (by exact_mod_cast hpos) ⟨n.toNat, 0, by omega, ?_⟩
    rw [intCast_toNat_q _ h0]
    simp

theorem floor_le_rd (y : ℚ) (h0 : 0 ≤ y) (hY : y < 2 ^ 53) : (⌊y⌋ : ℚ) ≤ rd y := by
  have hf0 : 0 ≤ ⌊y⌋ := Int.floor_nonneg.2 h0
  have hfu : ⌊y⌋ < 2 ^ 53 := by
    have h1 : (⌊y⌋ : ℚ) ≤ y := Int.floor_le y
    have h2 : (⌊y⌋ : ℚ) < 2 ^ 53 := lt_of_le_of_lt h1 hY
    exact_mod_cast h2
  calc (⌊y⌋ : ℚ) = rd (⌊y⌋ : ℚ) := (rd_intCast_fix _ hf0 hfu).symm
    _ ≤ rd y := rd_mono (by exact_mod_cast hf0) (Int.floor_le y)

theorem repr53_fract (x : ℚ) (h : Repr53 x) : Repr53 (x - ⌊x⌋) := by
  obtain ⟨k, t, hk, hxe⟩ := h
  rcases le_or_lt 0 t with ht | ht
  · -- x is an integer: the fractional part is 0
    have hint : x = ((k * 2 ^ t.toNat : ℕ) : ℚ) := by
      rw [hxe]
      push_cast
      rw [← zpow_natCast (2:ℚ) t.toNat, Int.toNat_of_nonneg ht]
    have hfl : ⌊x⌋ = ((k * 2 ^ t.toNat : ℕ) : ℤ) := by
      have hc2 : x = (((k * 2 ^ t.toNat : ℕ) : ℤ) : ℚ) := by
        rw [hint]
        push_cast
        ring
      rw [hc2]
      exact Int.floor_intCast _
    refine ⟨0, 0, by norm_num, ?_⟩
    rw [hfl, hint]
    push_cast
    ring
  · -- x = k / 2^m with m = -t > 0
    set m : ℕ := (-t).toNat with hmdef
    have hm : (m : ℤ) = -t := Int.toNat_of_nonneg (by omega)
    have hmpos : (0:ℚ) < 2 ^ m := by positivity
    have hne : ((2:ℚ) ^ m) ≠ 0 := ne_of_gt hmpos
    have h2t : (2:ℚ) ^ t = ((2:ℚ) ^ m)⁻¹ := by
      rw [← zpow_natCast (2:ℚ) m, ← zpow_neg]
      congr 1
      rw [hm]
      ring
    have hxdiv : x = (k : ℚ) / 2 ^ m := by
      rw [hxe, h2t, div_eq_mul_inv]
    have hid : (k:ℚ) = ((k / 2 ^ m : ℕ) : ℚ) * 2 ^ m + ((k % 2 ^ m : ℕ) : ℚ) := by
      have hdm : (k / 2 ^ m) * 2 ^ m + k % 2 ^ m = k := by
        rw [Nat.mul_comm (k / 2 ^ m) (2 ^ m)]
        exact Nat.div_add_mod k (2 ^ m)
      have := congrArg (fun n : ℕ => (n : ℚ)) hdm.symm
      push_cast at this
      linarith [this]
    have hfl : ⌊x⌋ = ((k / 2 ^ m : ℕ) : ℤ) := by
      rw [hxdiv, Int.floor_eq_iff]
      constructor
      · rw [le_div_iff₀ hmpos]
        exact_mod_cast Nat.div_mul_le_self k (2 ^ m)
      · rw [div_lt_iff₀ hmpos]
        have hmod : k % 2 ^ m < 2 ^ m := Nat.mod_lt k (by positivity)
        have hlt : k < (k / 2 ^ m + 1) * 2 ^ m := by
          calc k = 2 ^ m * (k / 2 ^ m) + k % 2 ^ m := (Nat.div_add_mod _ _).symm
            _ < 2 ^ m * (k / 2 ^ m) + 2 ^ m := Nat.add_lt_add_left hmod _
            _ = (k / 2 ^ m + 1) * 2 ^ m := by ring
        push_cast
        exact_mod_cast hlt
    refine ⟨k % 2 ^ m, t, by have := Nat.mod_le k (2 ^ m); omega, ?_⟩
    have hcc : (((k / 2 ^ m : ℕ) : ℤ) : ℚ) = ((k / 2 ^ m : ℕ) : ℚ) :=
      Int.cast_natCast _
    rw [hfl, hxdiv, hcc, h2t, div_eq_mul_inv]
    calc (k:ℚ) * ((2:ℚ) ^ m)⁻¹ - ((k / 2 ^ m : ℕ) : ℚ)
        = (((k / 2 ^ m : ℕ) : ℚ) * 2 ^ m + ((k % 2 ^ m : ℕ) : ℚ)) * ((2:ℚ) ^ m)⁻¹
            - ((k / 2 ^ m : ℕ) : ℚ) := by rw [← hid]
      _ = ((k % 2 ^ m : ℕ) : ℚ) * ((2:ℚ) ^ m)⁻¹ := by
          rw [add_mul, mul_assoc, mul_inv_cancel₀ hne, mul_one]
          ring
      _ = ((k % 2 ^ m : ℕ) : ℚ) * ((2:ℚ) ^ m)⁻¹ := rfl

theorem rd_zero : rd 0 = 0 := by
  rw [rd, if_pos rfl]

theorem pyTrunc_eq_floor (q : ℚ) (h : 0 ≤ q) : pyTrunc q = ⌊q⌋ := by
  rw [pyTrunc, if_neg (not_lt.2 h)]

theorem abs_floor_sub_le_one (x v : ℚ) (h : |x - v| ≤ 1) : |(⌊x⌋ - ⌊v⌋ : ℤ)| ≤ 1 := by
  rw [abs_le] at h ⊢
  obtain ⟨h1, h2⟩ := h
  constructor
  · have hx : v - 1 ≤ x := by linarith
    have h3 : ⌊v - 1⌋ ≤ ⌊x⌋ := Int.floor_le_floor hx
    have h4 : ⌊v - 1⌋ = ⌊v⌋ - 1 := by
      rw [show v - 1 = v + ((-1 : ℤ) : ℚ) by push_cast; ring, Int.floor_add_int]
      ring
    omega
  · have hx : x ≤ v + 1 := by linarith
    have h3 : ⌊x⌋ ≤ ⌊v + 1⌋ := Int.floor_le_floor hx
    have h4 : ⌊v + 1⌋ = ⌊v⌋ + 1 := by
      rw [show v + 1 = v + ((1 : ℤ) : ℚ) by push_cast; ring, Int.floor_add_int]
    omega

theorem pyPercent_near_floor (k n : ℕ) (hn : 0 < n) (hk : k ≤ n) :
    |ConversionWorker.pyPercent k n - ⌊((k : ℚ) / n) * 100⌋| ≤ 1 := by
  rcases Nat.eq_zero_or_pos k with hk0 | hkpos
  · subst hk0
    rw [ConversionWorker.pyPercent, Nat.cast_zero, zero_div, rd_zero, zero_mul, rd_zero]
    norm_num [pyTrunc]
  · have hnQ : (0:ℚ) < (n:ℚ) := by exact_mod_cast hn
    set q : ℚ := (k : ℚ) / n with hq
    have hqpos : 0 < q := by positivity
    have hqle : q ≤ 1 := by
      rw [hq, div_le_one hnQ]
      exact_mod_cast hk
    set x1 : ℚ := rd q with hx1
    have hx1u : x1 ≤ q + q / 2 ^ 53 := rd_le_upper q hqpos.le
    have hx1l : q - q / 2 ^ 53 ≤ x1 := rd_ge_lower q hqpos.le
    have hx1nn : 0 ≤ x1 := rd_nonneg q hqpos.le
    have hd1 : q / 2 ^ 53 ≤ 1 / 2 ^ 53 := by gcongr
    have hx1b : x1 ≤ 2 := by
      have : (1 : ℚ) / 2 ^ 53 ≤ 1 := by norm_num
      linarith
    have hyb : x1 * 100 ≤ 200 := by linarith
    have hynn : 0 ≤ x1 * 100 := by linarith
    set x2 : ℚ := rd (x1 * 100) with hx2
    have hx2u : x2 ≤ x1 * 100 + (x1 * 100) / 2 ^ 53 := rd_le_upper _ hynn
    have hx2l : x1 * 100 - (x1 * 100) / 2 ^ 53 ≤ x2 := rd_ge_lower _ hynn
    have hx2nn : 0 ≤ x2 := rd_nonneg _ hynn
    have hd2 : (x1 * 100) / 2 ^ 53 ≤ 200 / 2 ^ 53 := by gcongr
    have hd2nn : 0 ≤ (x1 * 100) / 2 ^ 53 := by positivity
    have hnum1 : (200 : ℚ) / 2 ^ 53 + 100 * (1 / 2 ^ 53) ≤ 1 := by norm_num
    have hclose : |x2 - q * 100| ≤ 1 := by
      rw [abs_le]
      constructor <;> nlinarith
    rw [ConversionWorker.pyPercent, ← hq, ← hx1, ← hx2, pyTrunc_eq_floor _ hx2nn]
    exact abs_floor_sub_le_one x2 (q * 100) hclose

namespace ConversionWorker

theorem fmtParts_fields_sum (x : ℚ) :
    (fmtParts x).1 * 3600 + (fmtParts x).2.1 * 60 + (fmtParts x).2.2.1 = pyTrunc x := by
  rw [fmtParts]
  dsimp only
  omega

theorem fmtParts_timeVal (x : ℚ) :
    timeVal (fmtParts x) = pyTrunc x * 1000 + (fmtParts x).2.2.2 := by
  rw [timeVal, fmtParts]
  dsimp only
  omega

theorem fmtParts_ms_nonneg (x : ℚ) (hx : 0 ≤ x) : 0 ≤ (fmtParts x).2.2.2 := by
  rw [fmtParts]
  dsimp only
  have h0 : pyTrunc x = ⌊x⌋ := pyTrunc_eq_floor x hx
  rw [h0]
  have h1 : 0 ≤ x - (⌊x⌋ : ℚ) := sub_nonneg.2 (Int.floor_le x)
  have h2 : 0 ≤ rd (x - (⌊x⌋ : ℚ)) := rd_nonneg _ h1
  have h3 : 0 ≤ rd (x - (⌊x⌋ : ℚ)) * 1000 := by linarith
  have h4 : 0 ≤ rd (rd (x - (⌊x⌋ : ℚ)) * 1000) := rd_nonneg _ h3
  rw [pyTrunc_eq_floor _ h4]
  exact Int.floor_nonneg.2 h4

theorem fmtParts_ms_le (x : ℚ) (hx : 0 ≤ x) : (fmtParts x).2.2.2 ≤ 1000 := by
  rw [fmtParts]
  dsimp only
  have h0 : pyTrunc x = ⌊x⌋ := pyTrunc_eq_floor x hx
  rw [h0]
  have h1 : 0 ≤ x - (⌊x⌋ : ℚ) := sub_nonneg.2 (Int.floor_le x)
  have h1b : x - (⌊x⌋ : ℚ) ≤ 1 := by
    have := Int.lt_floor_add_one x
    linarith
  have h2 : rd (x - (⌊x⌋ : ℚ)) ≤ rd 1 := rd_mono h1 h1b
  have h2b : rd (1 : ℚ) = 1 := by
    have := rd_intCast_fix 1 (by norm_num) (by norm_num)
    rwa [show ((1:ℤ):ℚ) = (1:ℚ) by norm_num] at this
  rw [h2b] at h2
  have h3 : rd (x - (⌊x⌋ : ℚ)) * 1000 ≤ 1000 := by linarith
  have h3b : 0 ≤ rd (x - (⌊x⌋ : ℚ)) * 1000 := by
    have := rd_nonneg _ h1
    linarith
  have h4 : rd (rd (x - (⌊x⌋ : ℚ)) * 1000) ≤ rd 1000 := rd_mono h3b h3
  have h4b : rd (1000 : ℚ) = 1000 := by
    have := rd_intCast_fix 1000 (by norm_num) (by norm_num)
    rwa [show ((1000:ℤ):ℚ) = (1000:ℚ) by norm_num] at this
  rw [h4b] at h4
  have h5 : 0 ≤ rd (rd (x - (⌊x⌋ : ℚ)) * 1000) := rd_nonneg _ h3b
  rw [pyTrunc_eq_floor _ h5]
  have h6 : ⌊rd (rd (x - (⌊x⌋ : ℚ)) * 1000)⌋ ≤ ⌊(1000 : ℚ)⌋ := Int.floor_le_floor h4
  have h7 : ⌊(1000 : ℚ)⌋ = 1000 := by
    rw [show (1000:ℚ) = ((1000:ℤ):ℚ) by norm_num, Int.floor_intCast]
  omega

theorem fmtParts_timeVal_mono (x y : ℚ) (hx : 0 ≤ x) (h : x ≤ y) :
    timeVal (fmtParts x) ≤ timeVal (fmtParts y) := by
  have hy : 0 ≤ y := le_trans hx h
  rw [fmtParts_timeVal, fmtParts_timeVal, pyTrunc_eq_floor x hx, pyTrunc_eq_floor y hy]
  have hfl : ⌊x⌋ ≤ ⌊y⌋ := Int.floor_le_floor h
  rcases eq_or_lt_of_le hfl with heq | hlt
  · -- same integral part: the millisecond field is monotone
    have hmsm : (fmtParts x).2.2.2 ≤ (fmtParts y).2.2.2 := by
      rw [fmtParts, fmtParts, pyTrunc_eq_floor x hx, pyTrunc_eq_floor y hy]
      dsimp only
      have hfr : x - (⌊x⌋ : ℚ) ≤ y - (⌊y⌋ : ℚ) := by
        have hc : ((⌊x⌋ : ℤ) : ℚ) = ((⌊y⌋ : ℤ) : ℚ) := by exact_mod_cast heq
        linarith
      have hfx0 : 0 ≤ x - (⌊x⌋ : ℚ) := sub_nonneg.2 (Int.floor_le x)
      have h1 := rd_mono hfx0 hfr
      have h2 : rd (x - (⌊x⌋ : ℚ)) * 1000 ≤ rd (y - (⌊y⌋ : ℚ)) * 1000 := by linarith
      have h3 : 0 ≤ rd (x - (⌊x⌋ : ℚ)) * 1000 := by
        have := rd_nonneg _ hfx0
        linarith
      have h4 := rd_mono h3 h2
      have h5 : 0 ≤ rd (rd (x - (⌊x⌋ : ℚ)) * 1000) := rd_nonneg _ h3
      have h6 : 0 ≤ rd (rd (y - (⌊y⌋ : ℚ)) * 1000) := by
        have h7 : 0 ≤ y - (⌊y⌋ : ℚ) := sub_nonneg.2 (Int.floor_le y)
        have h8 : 0 ≤ rd (y - (⌊y⌋ : ℚ)) := rd_nonneg _ h7
        exact rd_nonneg _ (by linarith)
      rw [pyTrunc_eq_floor _ h5, pyTrunc_eq_floor _ h6]
      exact Int.floor_le_floor h4
    omega
  · have h1 := fmtParts_ms_le x hx
    have h2 := fmtParts_ms_nonneg y hy
    omega

theorem rd_fract_eq (x : ℚ) (hr : Repr53 x) : rd (x - ⌊x⌋) = x - ⌊x⌋ := by
  have h0 : 0 ≤ x - (⌊x⌋ : ℚ) := sub_nonneg.2 (Int.floor_le x)
  rcases eq_or_lt_of_le h0 with hz | hpos
  · rw [← hz, rd_zero]
  · exact rd_fix _ hpos (repr53_fract x hr)

theorem fmtParts_denote_close (x : ℚ) (hx : 0 ≤ x) (hr : Repr53 x) :
    |x - timeDenote (fmtParts x)| ≤ 1 / 1000 := by
  have hsum := fmtParts_fields_sum x
  have h0 : pyTrunc x = ⌊x⌋ := pyTrunc_eq_floor x hx
  -- the denoted value is ⌊x⌋ + ms / 1000
  have hden : timeDenote (fmtParts x) = (⌊x⌋ : ℚ) + ((fmtParts x).2.2.2 : ℚ) / 1000 := by
    rw [timeDenote]
    congr 1
    rw [show (fmtParts x).1 * 3600 + (fmtParts x).2.1 * 60 + (fmtParts x).2.2.1
      = pyTrunc x from hsum, h0]
  set fr : ℚ := x - (⌊x⌋ : ℚ) with hfr
  have hfr0 : 0 ≤ fr := sub_nonneg.2 (Int.floor_le x)
  have hfr1 : fr < 1 := by
    have := Int.lt_floor_add_one x
    rw [hfr]
    linarith
  have hrdfr : rd fr = fr := rd_fract_eq x hr
  have hms : (fmtParts x).2.2.2 = ⌊rd (fr * 1000)⌋ := by
    rw [fmtParts, h0]
    dsimp only
    rw [← hfr, hrdfr]
    have hy0 : 0 ≤ fr * 1000 := by linarith
    exact pyTrunc_eq_floor _ (rd_nonneg _ hy0)
  set y : ℚ := fr * 1000 with hy
  have hy0 : 0 ≤ y := by rw [hy]; linarith
  have hyb : y < 1000 := by rw [hy]; linarith
  have hflr : (⌊y⌋ : ℚ) ≤ rd y := floor_le_rd y hy0 (by norm_num; linarith)
  have hrdu : rd y ≤ y + y / 2 ^ 53 := rd_le_upper y hy0
  have hmsl : (⌊y⌋ : ℚ) ≤ ((fmtParts x).2.2.2 : ℚ) := by
    rw [hms]
    exact_mod_cast Int.floor_le_floor (Int.le_floor.2 hflr)
  have hmsu : ((fmtParts x).2.2.2 : ℚ) ≤ rd y := by
    rw [hms]
    exact_mod_cast Int.floor_le (rd y)
  have hflo : y - 1 < (⌊y⌋ : ℚ) := by
    have := Int.lt_floor_add_one y
    linarith
  have hyd : y / 2 ^ 53 ≤ 1 := by
    calc y / 2 ^ 53 ≤ 1000 / 2 ^ 53 := by gcongr
      _ ≤ 1 := by norm_num
  rw [hden, abs_le]
  have hxfr : x = (⌊x⌋ : ℚ) + fr := by rw [hfr]; ring
  constructor
  · have h1 : ((fmtParts x).2.2.2 : ℚ) ≤ y + 1 := by linarith
    have h2 : y = fr * 1000 := hy
    linarith
  · have h1 : y - 1 ≤ ((fmtParts x).2.2.2 : ℚ) := by linarith
    have h2 : y = fr * 1000 := hy
    linarith

end ConversionWorker

/-! ### Properties of the string parsing helpers -/

theorem takeWhile_all {p : Char → Bool} {l : List Char} (h : ∀ c ∈ l, p c = true) :
    l.takeWhile p = l := by
  induction l with
  | nil => rfl
  | cons c r ih =>
    simp only [List.takeWhile_cons, h c (List.mem_cons_self c r), if_true]
    rw [ih (fun x hx => h x (List.mem_cons_of_mem c hx))]

theorem dropWhile_all {p : Char → Bool} {l : List Char} (h : ∀ c ∈ l, p c = true) :
    l.dropWhile p = [] := by
  induction l with
  | nil => rfl
  | cons c r ih =>
    simp only [List.dropWhile_cons, h c (List.mem_cons_self c r), if_true]
    exact ih (fun x hx => h x (List.mem_cons_of_mem c hx))

theorem takeWhile_append_not {p : Char → Bool} {a r : List Char} {c : Char}
    (ha : ∀ x ∈ a, p x = true) (hc : p c = false) :
    (a ++ c :: r).takeWhile p = a := by
  induction a with
  | nil => simp [List.takeWhile_cons, hc]
  | cons x xs ih =>
    rw [List.cons_append]
    simp only [List.takeWhile_cons, ha x (List.mem_cons_self x xs), if_true]
    rw [ih (fun y hy => ha y (List.mem_cons_of_mem x hy))]

theorem dropWhile_append_not {p : Char → Bool} {a r : List Char} {c : Char}
    (ha : ∀ x ∈ a, p x = true) (hc : p c = false) :
    (a ++ c :: r).dropWhile p = c :: r := by
  induction a with
  | nil => simp [List.dropWhile_cons, hc]
  | cons x xs ih =>
    rw [List.cons_append]
    simp only [List.dropWhile_cons, ha x (List.mem_cons_self x xs), if_true]
    exact ih (fun y hy => ha y (List.mem_cons_of_mem x hy))

theorem splitOnChar_ne_nil (sep : Char) (l : List Char) : splitOnChar sep l ≠ [] := by
  cases l with
  | nil => simp [splitOnChar]
  | cons c r =>
    rw [splitOnChar]
    cases hb : splitOnChar sep r with
    | nil => simp
    | cons h2 t2 =>
      dsimp only
      split <;> simp

theorem splitOnChar_no_sep {sep : Char} {l : List Char} (h : sep ∉ l) :
    splitOnChar sep l = [l] := by
  induction l with
  | nil => rfl
  | cons c r ih =>
    rw [splitOnChar]
    have hr : sep ∉ r := fun hx => h (List.mem_cons_of_mem c hx)
    rw [ih hr]
    have hc : ¬ c = sep := fun hx => h (hx ▸ List.mem_cons_self c r)
    simp [hc]

theorem splitOnChar_append {sep : Char} {a b : List Char} (h : sep ∉ a) :
    splitOnChar sep (a ++ sep :: b) = a :: splitOnChar sep b := by
  induction a with
  | nil =>
    rw [List.nil_append, splitOnChar]
    cases hb : splitOnChar sep b with
    | nil => exact absurd hb (splitOnChar_ne_nil sep b)
    | cons h2 t2 => simp
  | cons x xs ih =>
    rw [List.cons_append, splitOnChar]
    have hxs : sep ∉ xs := fun hx => h (List.mem_cons_of_mem x hx)
    rw [ih hxs]
    have hx : ¬ x = sep := fun hx => h (hx ▸ List.mem_cons_self x xs)
    simp [hx]

theorem isDigit_ne_special {c : Char} (h : c.isDigit = true) :
    c ≠ ':' ∧ c ≠ '.' := by
  constructor <;> rintro rfl <;> simp at h

theorem pyFloat_all_digits (a : List Char) (h1 : a ≠ [])
    (h2 : ∀ c ∈ a, c.isDigit = true) : pyFloat a = some (rd (natVal a)) := by
  rw [pyFloat, takeWhile_all h2, dropWhile_all h2]
  simp [h1]

theorem pyFloat_digits_dot (d2 d3 : List Char) (h1 : d2 ≠ [])
    (hd2 : ∀ c ∈ d2, c.isDigit = true) (hd3 : ∀ c ∈ d3, c.isDigit = true) :
    pyFloat (d2 ++ '.' :: d3) =
      some (rd ((natVal d2 : ℚ) + (natVal d3 : ℚ) / 10 ^ d3.length)) := by
  rw [pyFloat, takeWhile_append_not hd2 (by decide), dropWhile_append_not hd2 (by decide)]
  split
  · simp_all
  · rename_i r2 heq
    injection heq with hh ht
    subst ht
    rw [takeWhile_all hd3, dropWhile_all hd3]
    simp [h1]
  · rename_i hne
    exact absurd rfl (hne d3)

theorem pyFloat_nonneg (l : List Char) (v : ℚ) (h : pyFloat l = some v) : 0 ≤ v := by
  rw [pyFloat] at h
  split at h
  · split_ifs at h
    injection h with h
    subst h
    exact rd_nonneg _ (by positivity)
  · dsimp only at h
    split_ifs at h
    injection h with h
    subst h
    exact rd_nonneg _ (by positivity)
  · exact absurd h (by simp)

/-- The shape of a string matched by `\d+:\d+\.\d+`. -/
theorem TimeGroup_dot_mem {g : List Char} (h : TimeGroup g) : '.' ∈ g := by
  obtain ⟨d1, d2, d3, _, _, _, _, _, _, rfl⟩ := h
  simp

namespace ConversionWorker

theorem time_to_seconds_of_TimeGroup {g : List Char} (h : TimeGroup g) :
    ∃ v : ℚ, time_to_seconds g = some v ∧ 0 ≤ v ∧ Repr53 v := by
  obtain ⟨d1, d2, d3, h1, h2, h3, hd1, hd2, hd3, rfl⟩ := h
  have hc1 : ':' ∉ d1 := fun hx => (isDigit_ne_special (hd1 _ hx)).1 rfl
  have hc2 : ':' ∉ d2 ++ '.' :: d3 := by
    intro hx
    rcases List.mem_append.1 hx with hx | hx
    · exact (isDigit_ne_special (hd2 _ hx)).1 rfl
    · rcases List.mem_cons.1 hx with hx | hx
      · exact absurd hx.symm (by decide)
      · exact (isDigit_ne_special (hd3 _ hx)).1 rfl
  have ha : (0:ℚ) ≤ rd (rd (natVal d1 : ℚ) * 60) := by
    refine rd_nonneg _ ?_
    have := rd_nonneg (natVal d1 : ℚ) (by positivity)
    linarith
  have hb : (0:ℚ) ≤ rd ((natVal d2 : ℚ) + (natVal d3 : ℚ) / 10 ^ d3.length) :=
    rd_nonneg _ (by positivity)
  have hw0 : 0 ≤ rd (rd (rd (natVal d1 : ℚ) * 60)
      + rd ((natVal d2 : ℚ) + (natVal d3 : ℚ) / 10 ^ d3.length)) :=
    rd_nonneg _ (by linarith)
  have hcomp : time_to_seconds (d1 ++ ':' :: (d2 ++ '.' :: d3))
      = some (max 0 (rd (rd (rd (natVal d1 : ℚ) * 60)
          + rd ((natVal d2 : ℚ) + (natVal d3 : ℚ) / 10 ^ d3.length)))) := by
    rw [time_to_seconds, splitOnChar_append hc1, splitOnChar_no_sep hc2]
    dsimp only
    rw [pyFloat_all_digits d1 h1 hd1, pyFloat_digits_dot d2 d3 h2 hd2 hd3]
  rw [max_eq_right hw0] at hcomp
  exact ⟨_, hcomp, hw0, rd_repr53 _ (by linarith)⟩

end ConversionWorker

theorem matchTimeGroup_shape {l g r : List Char} (h : matchTimeGroup l = some (g, r)) :
    TimeGroup g ∧ l = g ++ r := by
  rw [matchTimeGroup] at h
  split_ifs at h with hd1
  split at h
  · rename_i r2 heq
    try dsimp only at h
    split_ifs at h with hd2
    split at h
    · rename_i r4 heq2
      try dsimp only at h
      split_ifs at h with hd3
      injection h with h
      injection h with hg hr
      subst hg
      subst hr
      have he1 := List.takeWhile_append_dropWhile (p := Char.isDigit) (l := l)
      have he2 := List.takeWhile_append_dropWhile (p := Char.isDigit) (l := r2)
      have he3 := List.takeWhile_append_dropWhile (p := Char.isDigit) (l := r4)
      constructor
      · refine ⟨l.takeWhile Char.isDigit, r2.takeWhile Char.isDigit,
          r4.takeWhile Char.isDigit, ?_, ?_, ?_, ?_, ?_, ?_, rfl⟩
        · simpa using hd1
        · simpa using hd2
        · simpa using hd3
        · exact fun c hc => List.mem_takeWhile_imp hc
        · exact fun c hc => List.mem_takeWhile_imp hc
        · exact fun c hc => List.mem_takeWhile_imp hc
      · calc l = l.takeWhile Char.isDigit ++ l.dropWhile Char.isDigit := he1.symm
          _ = l.takeWhile Char.isDigit ++ (':' :: r2) := by rw [heq]
          _ = l.takeWhile Char.isDigit ++ ':' ::
              (r2.takeWhile Char.isDigit ++ r2.dropWhile Char.isDigit) := by rw [he2]
          _ = l.takeWhile Char.isDigit ++ ':' ::
              (r2.takeWhile Char.isDigit ++ ('.' :: r4)) := by rw [heq2]
          _ = l.takeWhile Char.isDigit ++ ':' :: (r2.takeWhile Char.isDigit ++ '.' ::
              (r4.takeWhile Char.isDigit ++ r4.dropWhile Char.isDigit)) := by rw [he3]
          _ = (l.takeWhile Char.isDigit ++ ':' :: (r2.takeWhile Char.isDigit ++ '.' ::
              r4.takeWhile Char.isDigit)) ++ r4.dropWhile Char.isDigit := by
              simp [List.append_assoc]
    · exact absurd h (by simp)
  · exact absurd h (by simp)

theorem matchTimesAt_parts {l g1 g2 : List Char} (h : matchTimesAt l = some (g1, g2)) :
    TimeGroup g1 ∧ TimeGroup g2 ∧ '.' ∈ l := by
  rw [matchTimesAt.eq_def] at h
  split at h
  · rename_i r0
    split at h
    · exact absurd h (by simp)
    · rename_i ga ra hm1
      split at h
      · rename_i r3 heq1
        split at h
        · exact absurd h (by simp)
        · rename_i gb rb hm2
          split at h
          · rename_i rest heq2
            injection h with h
            injection h with h1 h2
            subst h1
            subst h2
            obtain ⟨htg1, hsplit1⟩ := matchTimeGroup_shape hm1
            obtain ⟨htg2, _⟩ := matchTimeGroup_shape hm2
            refine ⟨htg1, htg2, ?_⟩
            have hdot : '.' ∈ ga := TimeGroup_dot_mem htg1
            rw [hsplit1]
            simp [hdot]
          · exact absurd h (by simp)
      · exact absurd h (by simp)
  · exact absurd h (by simp)

theorem searchTimes_parts {l g1 g2 : List Char} (h : searchTimes l = some (g1, g2)) :
    TimeGroup g1 ∧ TimeGroup g2 ∧ '.' ∈ l := by
  induction l with
  | nil => exact absurd h (by simp [searchTimes])
  | cons c rest ih =>
    rw [searchTimes] at h
    split at h
    · rename_i p hm
      injection h with h
      subst h
      obtain ⟨a, b, hc⟩ := matchTimesAt_parts hm
      exact ⟨a, b, hc⟩
    · obtain ⟨a, b, hc⟩ := ih h
      exact ⟨a, b, List.mem_cons_of_mem c hc⟩

theorem searchTimes_none_of_no_dot {l : List Char} (h : '.' ∉ l) :
    searchTimes l = none := by
  cases hs : searchTimes l with
  | none => rfl
  | some p =>
    obtain ⟨g1, g2⟩ := p
    exact absurd (searchTimes_parts hs).2.2 h

namespace ConversionWorker

theorem convertLineE_ne_badTime (line : List Char) :
    convertLineE line ≠ LineRes.badTime := by
  rw [convertLineE]
  cases hs : searchTimes line with
  | none => exact fun hc => LineRes.noConfusion hc
  | some p =>
    obtain ⟨g1, g2⟩ := p
    obtain ⟨hg1, hg2, _⟩ := searchTimes_parts hs
    obtain ⟨v1, hv1, _, _⟩ := time_to_seconds_of_TimeGroup hg1
    obtain ⟨v2, hv2, _, _⟩ := time_to_seconds_of_TimeGroup hg2
    dsimp only
    rw [hv1, hv2]
    dsimp only
    split_ifs <;> exact fun hc => LineRes.noConfusion hc

theorem convert_errs_nil (c : ℕ → Bool) (ls : List (List Char)) :
    ∀ idx k, (convertFileAux c ls idx k).2.1 = [] := by
  induction ls with
  | nil => intro idx k; rfl
  | cons line rest ih =>
    intro idx k
    rw [convertFileAux]
    split_ifs with hc
    · rfl
    · cases hE : convertLineE line with
      | noMatch => exact ih _ _
      | skip => exact ih _ _
      | badTime => exact absurd hE (convertLineE_ne_badTime line)
      | cue s e t =>
        dsimp only
        exact ih _ _

theorem convert_indices (c : ℕ → Bool) (ls : List (List Char)) :
    ∀ idx k, ((convertFileAux c ls idx k).1.map Cue.index)
      = List.range' idx (convertFileAux c ls idx k).1.length := by
  induction ls with
  | nil => intro idx k; rfl
  | cons line rest ih =>
    intro idx k
    rw [convertFileAux]
    split_ifs with hc
    · rfl
    · cases hE : convertLineE line with
      | noMatch => exact ih _ _
      | skip => exact ih _ _
      | badTime => exact absurd hE (convertLineE_ne_badTime line)
      | cue s e t =>
        dsimp only
        rw [List.map_cons, List.length_cons, List.range'_succ]
        rw [ih (idx + 1) (k + 1)]

theorem convertFileAux_skipped (line : List Char) (rest : List (List Char))
    (idx k : ℕ) (c : ℕ → Bool) (hc : c k = false)
    (hE : convertLineE line = LineRes.skip ∨ convertLineE line = LineRes.noMatch) :
    convertFileAux c (line :: rest) idx k = convertFileAux c rest idx (k + 1) := by
  rw [convertFileAux]
  rcases hE with hE | hE <;> rw [hE] <;> simp [hc]

end ConversionWorker

namespace ConversionWorker

theorem processJob_missing (fs : FS) (fi : FileInfo) (k n : ℕ) (c : ℕ → Bool) (ctr : ℕ)
    (h : fs.file fi.input_path = none) :
    processJob fs fi k n c ctr =
      ([.jobError (basename fi.input_path ++ ": Input file not found: " ++ fi.input_path)],
        [], ctr) := by
  rw [processJob, h]

theorem processJob_ok (fs : FS) (fi : FileInfo) (k n : ℕ) (c : ℕ → Bool) (ctr : ℕ)
    (ls : List String)
    (h : fs.file fi.input_path = some ls)
    (hd : fs.dirExists (dirname fi.output_path) = true)
    (hw : fs.dirWritable (dirname fi.output_path) = true) :
    (processJob fs fi k n c ctr).1
        = [.progress (pyPercent k n) (basename fi.input_path)] ∧
      (processJob fs fi k n c ctr).2.1
        = [(fi.output_path, (convert_file c (ls.map String.data) ctr).1)] := by
  have herr : (convert_file c (ls.map String.data) ctr).2.1 = [] := by
    rw [convert_file]
    exact convert_errs_nil c (ls.map String.data) 1 ctr
  have hmain : processJob fs fi k n c ctr =
      ((convert_file c (ls.map String.data) ctr).2.1.map (fun m => Event.jobError (String.mk m))
          ++ [.progress (pyPercent k n) (basename fi.input_path)],
        [(fi.output_path, (convert_file c (ls.map String.data) ctr).1)],
        (convert_file c (ls.map String.data) ctr).2.2) := by
    rw [processJob, h]
    dsimp only
    rw [hd, hw]
    simp
  rw [hmain, herr]
  exact ⟨rfl, rfl⟩

theorem process_batch_nil (fs : FS) (k total : ℕ) (c : ℕ → Bool) (ctr : ℕ) :
    process_batch fs [] k total c ctr = ([], [], ctr) := rfl

theorem process_batch_cons (fs : FS) (fi : FileInfo) (rest : List FileInfo)
    (k total : ℕ) (c : ℕ → Bool) (ctr : ℕ) :
    process_batch fs (fi :: rest) k total c ctr =
      ((processJob fs fi k total c ctr).1
          ++ (process_batch fs rest (k + 1) total c (processJob fs fi k total c ctr).2.2).1,
        (processJob fs fi k total c ctr).2.1
          ++ (process_batch fs rest (k + 1) total c (processJob fs fi k total c ctr).2.2).2.1,
        (process_batch fs rest (k + 1) total c (processJob fs fi k total c ctr).2.2).2.2) :=
  rfl

theorem pfib_nil (fs : FS) (fuel index total bs : ℕ) (c : ℕ → Bool) (ctr : ℕ) :
    process_files_in_batches fs fuel [] index total bs c ctr = ([], [], ctr) := by
  cases fuel <;> rfl

theorem pfib_succ_cons (fs : FS) (fuel : ℕ) (f : FileInfo) (rem : List FileInfo)
    (index total bs : ℕ) (c : ℕ → Bool) (ctr : ℕ) :
    process_files_in_batches fs (fuel + 1) (f :: rem) index total bs c ctr =
      (if c ctr then ([], [], ctr + 1)
       else
        ((process_batch fs ((f :: rem).take bs) index total c (ctr + 1)).1
            ++ (process_files_in_batches fs fuel ((f :: rem).drop bs) (index + bs) total bs c
                (process_batch fs ((f :: rem).take bs) index total c (ctr + 1)).2.2).1,
          (process_batch fs ((f :: rem).take bs) index total c (ctr + 1)).2.1
            ++ (process_files_in_batches fs fuel ((f :: rem).drop bs) (index + bs) total bs c
                (process_batch fs ((f :: rem).take bs) index total c (ctr + 1)).2.2).2.1,
          (process_files_in_batches fs fuel ((f :: rem).drop bs) (index + bs) total bs c
              (process_batch fs ((f :: rem).take bs) index total c (ctr + 1)).2.2).2.2)) :=
  rfl

end ConversionWorker

theorem digitChar_isDigit (n : ℕ) (h : n < 10) : (Char.ofNat (48 + n)).isDigit = true := by
  interval_cases n <;> decide

theorem natDigitsAux_digits :
    ∀ fuel n : ℕ, ∀ c ∈ natDigitsAux fuel n, c.isDigit = true := by
  intro fuel
  induction fuel with
  | zero => intro n c hc; exact absurd hc (by simp [natDigitsAux])
  | succ f ih =>
    intro n c hc
    rw [natDigitsAux] at hc
    split_ifs at hc with h10
    · rw [List.mem_singleton] at hc
      subst hc
      exact digitChar_isDigit n h10
    · rcases List.mem_append.1 hc with hc | hc
      · exact ih _ c hc
      · rw [List.mem_singleton] at hc
        subst hc
        exact digitChar_isDigit _ (Nat.mod_lt n (by norm_num))

theorem natDigits_digits (n : ℕ) : ∀ c ∈ natDigits n, c.isDigit = true :=
  natDigitsAux_digits (n + 1) n

theorem zpad_no_colon (w : ℕ) (n : ℤ) : ':' ∉ zpad w n := by
  intro hmem
  rw [zpad] at hmem
  split_ifs at hmem
  · rcases List.mem_cons.1 hmem with hc | hc
    · exact absurd hc.symm (by decide)
    · rw [leftPad] at hc
      rcases List.mem_append.1 hc with hc | hc
      · exact absurd (List.eq_of_mem_replicate hc).symm (by decide)
      · exact (isDigit_ne_special (natDigits_digits _ _ hc)).1 rfl
  · rw [leftPad] at hmem
    rcases List.mem_append.1 hmem with hc | hc
    · exact absurd (List.eq_of_mem_replicate hc).symm (by decide)
    · exact (isDigit_ne_special (natDigits_digits _ _ hc)).1 rfl

namespace ConversionWorker

theorem time_to_seconds_format_time (x : ℚ) :
    time_to_seconds (format_time x) = none := by
  rw [format_time]
  have hC : ':' ∉ zpad 2 (fmtParts x).2.2.1 ++ ',' :: zpad 3 (fmtParts x).2.2.2 := by
    intro hmem
    rcases List.mem_append.1 hmem with hc | hc
    · exact zpad_no_colon _ _ hc
    · rcases List.mem_cons.1 hc with hc | hc
      · exact absurd hc.symm (by decide)
      · exact zpad_no_colon _ _ hc
  have hsplit : splitOnChar ':' (zpad 2 (fmtParts x).1 ++ ':' ::
      (zpad 2 (fmtParts x).2.1 ++ ':' ::
        (zpad 2 (fmtParts x).2.2.1 ++ ',' :: zpad 3 (fmtParts x).2.2.2)))
      = [zpad 2 (fmtParts x).1, zpad 2 (fmtParts x).2.1,
          zpad 2 (fmtParts x).2.2.1 ++ ',' :: zpad 3 (fmtParts x).2.2.2] := by
    rw [splitOnChar_append (zpad_no_colon _ _), splitOnChar_append (zpad_no_colon _ _),
      splitOnChar_no_sep hC]
  rw [time_to_seconds]
  rw [show zpad 2 (fmtParts x).1 ++ ':' :: zpad 2 (fmtParts x).2.1 ++ ':' ::
      zpad 2 (fmtParts x).2.2.1 ++ ',' :: zpad 3 (fmtParts x).2.2.2
    = zpad 2 (fmtParts x).1 ++ ':' :: (zpad 2 (fmtParts x).2.1 ++ ':' ::
      (zpad 2 (fmtParts x).2.2.1 ++ ',' :: zpad 3 (fmtParts x).2.2.2)) by
    simp [List.append_assoc]]
  rw [hsplit]

theorem time_to_seconds_some (g : List Char) (x : ℚ)
    (h : time_to_seconds g = some x) : 0 ≤ x ∧ Repr53 x := by
  rw [time_to_seconds] at h
  split at h
  · rename_i m s2
    split at h
    · rename_i mv sv hpm hps
      injection h with h
      subst h
      have hmv := pyFloat_nonneg _ _ hpm
      have hsv := pyFloat_nonneg _ _ hps
      have hin : 0 ≤ rd (mv * 60) + sv := by
        have := rd_nonneg (mv * 60) (by positivity)
        linarith
      have hw : 0 ≤ rd (rd (mv * 60) + sv) := rd_nonneg _ hin
      rw [max_eq_right hw]
      exact ⟨hw, rd_repr53 _ hin⟩
    · exact absurd h (by simp)
  · exact absurd h (by simp)

theorem convertLine_some (line : List Char) (s e : ℚ) (t : List Char)
    (h : convertLine line = some (s, e, t)) :
    0 ≤ s ∧ 0 ≤ e ∧ s < e := by
  rw [convertLine] at h
  cases hE : convertLineE line with
  | noMatch => rw [hE] at h; exact absurd h (by simp)
  | badTime => rw [hE] at h; exact absurd h (by simp)
  | skip => rw [hE] at h; exact absurd h (by simp)
  | cue s2 e2 t2 =>
    rw [hE] at h
    dsimp only at h
    injection h with h
    injection h with hs1 h
    injection h with he1 ht1
    subst hs1
    subst he1
    rw [convertLineE] at hE
    split at hE
    · exact absurd hE (by simp)
    · rename_i g1 g2
      split at hE
      · rename_i v1 v2 hp1 hp2
        split_ifs at hE with hle
        dsimp only at hE
        split_ifs at hE with hemp
        injection hE with hv1 hv2 _
        subst hv1
        subst hv2
        have hns := time_to_seconds_some _ _ hp1
        have hne := time_to_seconds_some _ _ hp2
        exact ⟨hns.1, hne.1, lt_of_not_le hle⟩
      · exact absurd hE (by simp)

end ConversionWorker

namespace ConversionWorker

theorem run_events_batch100 (fs : FS) (l : List FileInfo) (n : ℕ) (c : ℕ → Bool)
    (hc : c 0 = false) (hn : l.length = n) (hlen : l.length ≤ 100) (hne : l ≠ []) :
    (run fs l 100 c).1 = (process_batch fs l 0 n c 1).1 ++ [.done] := by
  obtain ⟨x, xs, rfl⟩ := List.exists_cons_of_ne_nil hne
  subst hn
  rw [run, if_neg (by norm_num)]
  dsimp only
  rw [List.length_cons, pfib_succ_cons, hc]
  rw [if_neg (by simp)]
  rw [List.take_of_length_le (by rw [List.length_cons] at hlen ⊢; exact hlen),
    List.drop_eq_nil_of_le (by rw [List.length_cons] at hlen ⊢; exact hlen),
    pfib_nil]
  dsimp only
  rw [List.append_nil, Nat.zero_add]

end ConversionWorker

/-! ### The claims -/

/-- Claim C1: for the input line "[0:01.200 -> 0:03.500] Hello world" as the
first cue of a file the code does NOT emit the record the spec shows: the
start timestamp is formatted `00:00:01,199`, not `00:00:01,200`, because the
binary64 value of `1.2` is slightly below 6/5 and `_format_time` truncates
`(seconds - int(seconds)) * 1000` with `int()`. -/
theorem spec_c1_first_cue_record :
    (ConversionWorker.convert_file (fun _ => false)
        ["[0:01.200 -> 0:03.500] Hello world\n".data] 0).1
      = "1\n00:00:01,199 --> 00:00:03,500\nHello world\n\n".data ∧
    ConversionWorker.format_time
        ((ConversionWorker.time_to_seconds "0:01.200".data).getD 0)
      ≠ "00:00:01,200".data := by
  exact ⟨by decide, by decide⟩

/-- Claim C2 (counterexample): `_time_to_seconds` parses `m:ss.fff` — one
colon — while `_format_time` emits `HH:MM:SS,mmm` — two colons — so parsing a
formatted string back never succeeds: for x = 3.5 (parsed from "0:03.500"),
`_time_to_seconds(_format_time(x))` raises rather than returning ≈ x. -/
theorem spec_c2_roundtrip_counterexample :
    ConversionWorker.time_to_seconds "0:03.500".data = some (7/2) ∧
    ConversionWorker.format_time (7/2) = "00:00:03,500".data ∧
    ConversionWorker.time_to_seconds "00:00:03,500".data = none := by
  exact ⟨by decide, by decide, by decide⟩

/-- Claim C2 (amended): for every seconds value x produced by parsing a
timestamp, feeding the formatted string back to the parser FAILS (it is a
`ValueError`, modelled as `none`); the value the formatted record denotes —
hours, minutes, seconds and milliseconds read back as a time — is within
1/1000 of x. -/
theorem spec_c2_roundtrip_amended (g : List Char) (x : ℚ)
    (h : ConversionWorker.time_to_seconds g = some x) :
    ConversionWorker.time_to_seconds (ConversionWorker.format_time x) = none ∧
    |x - ConversionWorker.timeDenote (ConversionWorker.fmtParts x)| ≤ 1 / 1000 := by
  obtain ⟨hx, hr⟩ := ConversionWorker.time_to_seconds_some g x h
  exact ⟨ConversionWorker.time_to_seconds_format_time x,
    ConversionWorker.fmtParts_denote_close x hx hr⟩

/-- Claim C2, the amended statement at the concrete input "0:03.500". -/
theorem spec_c2_roundtrip_amended_witness :
    ConversionWorker.time_to_seconds (ConversionWorker.format_time (7/2)) = none ∧
    |(7/2 : ℚ) - ConversionWorker.timeDenote (ConversionWorker.fmtParts (7/2))| ≤ 1 / 1000 :=
  spec_c2_roundtrip_amended "0:03.500".data (7/2) (by decide)

/-- Claim C3: cancellation observed right after job 1 of a 5-job single-batch
run does NOT stop jobs 2–5.  `_process_files_in_batches` checks the flag only
once per batch and `_process_batch` has no per-job check, so jobs 2–5 are all
still started: each opens (truncates) its output, its per-line check sees the
flag and abandons the lines, and the runner still emits `progress` 20/40/60/80
for them before `finished` — the spec requires no Progress/JobError for jobs
2–5 at all. -/
theorem spec_c3_cancel_still_starts_jobs :
    (ConversionWorker.run fsB jobsB 100 cancelB).1
      = [.progress 0 "a.txt", .progress 20 "b.txt", .progress 40 "c.txt",
         .progress 60 "d.txt", .progress 80 "e.txt", .done] ∧
    (ConversionWorker.run fsB jobsB 100 cancelB).2
      = [("/out/a.srt", "1\n00:00:01,199 --> 00:00:03,500\nHello world\n\n".data),
         ("/out/b.srt", []), ("/out/c.srt", []), ("/out/d.srt", []), ("/out/e.srt", [])] := by
  exact ⟨by decide, by decide⟩

/-- Claim C4: in a run of three jobs where only the second job's input path
does not exist, the runner emits progress for jobs 1 and 3 (percent 0 and 66,
truncated from 0/3 and 2/3), exactly one error for job 2, and one final
`finished` — in that order; a missing input file never aborts the run. -/
theorem spec_c4_missing_input (fs : FS) (f1 f2 f3 : FileInfo) (l1 l3 : List String)
    (h1 : fs.file f1.input_path = some l1)
    (h2 : fs.file f2.input_path = none)
    (h3 : fs.file f3.input_path = some l3)
    (hd1 : fs.dirExists (dirname f1.output_path) = true)
    (hw1 : fs.dirWritable (dirname f1.output_path) = true)
    (hd3 : fs.dirExists (dirname f3.output_path) = true)
    (hw3 : fs.dirWritable (dirname f3.output_path) = true) :
    (ConversionWorker.run fs [f1, f2, f3] 100 (fun _ => false)).1
      = [.progress 0 (basename f1.input_path),
         .jobError (basename f2.input_path ++ ": Input file not found: " ++ f2.input_path),
         .progress 66 (basename f3.input_path),
         .done] := by
  rw [ConversionWorker.run_events_batch100 fs [f1, f2, f3] 3 (fun _ => false) rfl rfl
    (by simp) (by simp)]
  have e1 := fun ctr =>
    (ConversionWorker.processJob_ok fs f1 0 3 (fun _ => false) ctr l1 h1 hd1 hw1).1
  have e2 := fun ctr =>
    ConversionWorker.processJob_missing fs f2 1 3 (fun _ => false) ctr h2
  have e3 := fun ctr =>
    (ConversionWorker.processJob_ok fs f3 2 3 (fun _ => false) ctr l3 h3 hd3 hw3).1
  have hp0 : ConversionWorker.pyPercent 0 3 = 0 := by decide
  have hp2 : ConversionWorker.pyPercent 2 3 = 66 := by decide
  simp only [ConversionWorker.process_batch_cons, ConversionWorker.process_batch_nil,
    e1, e2, e3, hp0, hp2, List.append_nil, List.cons_append, List.nil_append]

/-- Claim C4 at a concrete three-job run: files 1 and 3 exist, file 2 is
missing. -/
theorem spec_c4_missing_input_witness :
    (ConversionWorker.run fsC [jobC1, jobC2, jobC3] 100 (fun _ => false)).1
      = [.progress 0 (basename jobC1.input_path),
         .jobError (basename jobC2.input_path ++ ": Input file not found: "
            ++ jobC2.input_path),
         .progress 66 (basename jobC3.input_path),
         .done] :=
  spec_c4_missing_input fsC jobC1 jobC2 jobC3 [] []
    (by decide) (by decide) (by decide) rfl rfl rfl rfl

/-- Claim C5 (counterexample): in a 100-job run the job at 0-based ordinal 29
(the 30th job) gets `progress` percent 28, while `floor((29/100)*100) = 29`
and `floor((30/100)*100) = 30`: `int(((i + index) / total) * 100)` computed
in binary64 undershoots the exact floor, on either reading of `jobOrdinal`. -/
theorem spec_c5_percent_counterexample :
    (ConversionWorker.run fsA (List.replicate 100 jobA) 100 (fun _ => false)).1.get? 29
      = some (.progress 28 "a.txt") ∧
    (28 : ℤ) ≠ ⌊((29 : ℚ) / 100) * 100⌋ ∧ (28 : ℤ) ≠ ⌊((30 : ℚ) / 100) * 100⌋ := by
  exact ⟨by decide, by decide, by decide⟩

/-- Claim C5 (amended): for every job that completes successfully the runner
emits exactly one `progress` event whose label is the base name of the job's
input file and whose percent is `int(((i + index) / total) * 100)` computed
in binary64 — a value within 1 of the exact `floor((jobOrdinal/totalJobs)*100)`
(0-based ordinal), but not always equal to it. -/
theorem spec_c5_progress_amended (fs : FS) (fi : FileInfo) (k total : ℕ)
    (c : ℕ → Bool) (ctr : ℕ) (ls : List String)
    (hf : fs.file fi.input_path = some ls)
    (hd : fs.dirExists (dirname fi.output_path) = true)
    (hw : fs.dirWritable (dirname fi.output_path) = true)
    (hn : 0 < total) (hk : k ≤ total) :
    (ConversionWorker.processJob fs fi k total c ctr).1
      = [.progress (ConversionWorker.pyPercent k total) (basename fi.input_path)] ∧
    |ConversionWorker.pyPercent k total - ⌊((k : ℚ) / total) * 100⌋| ≤ 1 :=
  ⟨(ConversionWorker.processJob_ok fs fi k total c ctr ls hf hd hw).1,
    pyPercent_near_floor k total hn hk⟩

/-- Claim C5's amended statement at job ordinal 29 of 100. -/
theorem spec_c5_progress_amended_witness :
    (ConversionWorker.processJob fsA jobA 29 100 (fun _ => false) 0).1
      = [.progress (ConversionWorker.pyPercent 29 100) (basename jobA.input_path)] ∧
    |ConversionWorker.pyPercent 29 100 - ⌊((29 : ℚ) / 100) * 100⌋| ≤ 1 :=
  spec_c5_progress_amended fsA jobA 29 100 (fun _ => false) 0 []
    (by decide) rfl rfl (by decide) (by decide)

/-- Claim C6 (counterexample): the line "[0:01.0005 -> 0:01.0006] text"
produces a cue (its parsed start is strictly below its parsed end), yet both
endpoints format to the same string `00:00:01,000`: `formatTime` truncates to
milliseconds, so `formatTime(start) < formatTime(end)` can fail with equality. -/
theorem spec_c6_strict_counterexample :
    ConversionWorker.convertLine "[0:01.0005 -> 0:01.0006] text".data
      = some ((ConversionWorker.time_to_seconds "0:01.0005".data).getD 0,
          (ConversionWorker.time_to_seconds "0:01.0006".data).getD 0, "text".data) ∧
    (ConversionWorker.time_to_seconds "0:01.0005".data).getD 0
      < (ConversionWorker.time_to_seconds "0:01.0006".data).getD 0 ∧
    ConversionWorker.format_time ((ConversionWorker.time_to_seconds "0:01.0005".data).getD 0)
      = ConversionWorker.format_time ((ConversionWorker.time_to_seconds "0:01.0006".data).getD 0) := by
  exact ⟨by decide, by decide, by decide⟩

/-- Claim C6 (amended): for every line that produces a cue the parsed start is
strictly below the parsed end, and the formatted timestamps are ordered
non-strictly: compared as times (hours, minutes, seconds, milliseconds), the
start of the emitted record is at most its end. -/
theorem spec_c6_format_mono_amended (line : List Char) (s e : ℚ) (t : List Char)
    (h : ConversionWorker.convertLine line = some (s, e, t)) :
    s < e ∧
    ConversionWorker.timeVal (ConversionWorker.fmtParts s)
      ≤ ConversionWorker.timeVal (ConversionWorker.fmtParts e) := by
  obtain ⟨hs, _, hlt⟩ := ConversionWorker.convertLine_some line s e t h
  exact ⟨hlt, ConversionWorker.fmtParts_timeVal_mono s e hs hlt.le⟩

/-- Claim C6's amended statement at the line "[0:03.500 -> 0:04.500] Hi". -/
theorem spec_c6_format_mono_witness :
    (7/2 : ℚ) < 9/2 ∧
    ConversionWorker.timeVal (ConversionWorker.fmtParts (7/2))
      ≤ ConversionWorker.timeVal (ConversionWorker.fmtParts (9/2)) :=
  spec_c6_format_mono_amended "[0:03.500 -> 0:04.500] Hi".data (7/2) (9/2) "Hi".data
    (by decide)

/-- Claim C7: whatever the input lines and wherever the cancellation flag
flips, the cue indices a file's conversion writes are exactly idx, idx+1, …
consecutively; the converter starts every file at `subtitle_index = 1`, so
the written indices are 1, 2, 3, … with no gaps, however many lines are
skipped in between. -/
theorem spec_c7_contiguous_indices (c : ℕ → Bool) (lines : List (List Char)) (k : ℕ) :
    ((ConversionWorker.convertFileAux c lines 1 k).1.map ConversionWorker.Cue.index)
      = List.range' 1 (ConversionWorker.convertFileAux c lines 1 k).1.length :=
  ConversionWorker.convert_indices c lines 1 k

/-- Claim C8: a line whose matched timestamps satisfy start ≥ end (here
end ≤ start) yields no cue — `convertLine` returns none — and is not an
error: converting a file whose next line it is simply moves on to the rest
with the subtitle index unchanged. -/
theorem spec_c8_degenerate_interval (line g1 g2 : List Char) (s e : ℚ)
    (hm : searchTimes line = some (g1, g2))
    (h1 : ConversionWorker.time_to_seconds g1 = some s)
    (h2 : ConversionWorker.time_to_seconds g2 = some e)
    (hse : e ≤ s) :
    ConversionWorker.convertLine line = none ∧
    ∀ (rest : List (List Char)) (idx k : ℕ) (c : ℕ → Bool), c k = false →
      ConversionWorker.convertFileAux c (line :: rest) idx k
        = ConversionWorker.convertFileAux c rest idx (k + 1) := by
  have hE : ConversionWorker.convertLineE line = ConversionWorker.LineRes.skip := by
    rw [ConversionWorker.convertLineE, hm]
    dsimp only
    rw [h1, h2]
    dsimp only
    rw [if_pos hse]
  constructor
  · rw [ConversionWorker.convertLine, hE]
  · intro rest idx k c hc
    exact ConversionWorker.convertFileAux_skipped line rest idx k c hc (Or.inl hE)

/-- Claim C8 at the spec's example line "[0:05.000 -> 0:04.000] Bad order". -/
theorem spec_c8_degenerate_interval_witness :
    ConversionWorker.convertLine "[0:05.000 -> 0:04.000] Bad order".data = none ∧
    ∀ (rest : List (List Char)) (idx k : ℕ) (c : ℕ → Bool), c k = false →
      ConversionWorker.convertFileAux c ("[0:05.000 -> 0:04.000] Bad order".data :: rest) idx k
        = ConversionWorker.convertFileAux c rest idx (k + 1) :=
  spec_c8_degenerate_interval "[0:05.000 -> 0:04.000] Bad order".data
    "0:05.000".data "0:04.000".data 5 4 (by decide) (by decide) (by decide) (by decide)

/-- Claim C9: the timestamp parse after a regex match never fails.  Every
group the pattern captures parses to some seconds value, so the converter's
`Invalid time format` error branch is unreachable: the error-message list a
file conversion accumulates is always empty. -/
theorem spec_c9_no_invalid_time :
    (∀ line g1 g2 : List Char, searchTimes line = some (g1, g2) →
      ∃ s e : ℚ, ConversionWorker.time_to_seconds g1 = some s ∧
        ConversionWorker.time_to_seconds g2 = some e) ∧
    ∀ (c : ℕ → Bool) (lines : List (List Char)) (idx k : ℕ),
      (ConversionWorker.convertFileAux c lines idx k).2.1 = [] := by
  constructor
  · intro line g1 g2 h
    obtain ⟨hg1, hg2, _⟩ := searchTimes_parts h
    obtain ⟨v1, hv1, _, _⟩ := ConversionWorker.time_to_seconds_of_TimeGroup hg1
    obtain ⟨v2, hv2, _, _⟩ := ConversionWorker.time_to_seconds_of_TimeGroup hg2
    exact ⟨v1, v2, hv1, hv2⟩
  · intro c lines idx k
    exact ConversionWorker.convert_errs_nil c lines idx k

/-- Claim C10: a timestamp without a decimal fraction does not match.  The
example line "[0:01 -> 0:03] text" produces no match and no cue; in general,
any line the pattern does match yields two groups of the mandatory shape
digits, colon, digits, dot, digits — a fraction-less line has no dot to
capture, and a line with no dot at all can never match. -/
theorem spec_c10_requires_fraction :
    searchTimes "[0:01 -> 0:03] text".data = none ∧
    ConversionWorker.convertLine "[0:01 -> 0:03] text".data = none ∧
    (∀ l : List Char, '.' ∉ l → searchTimes l = none) ∧
    ∀ l g1 g2 : List Char, searchTimes l = some (g1, g2) →
      TimeGroup g1 ∧ TimeGroup g2 := by
  refine ⟨by decide, by decide, ?_, ?_⟩
  · intro l h
    exact searchTimes_none_of_no_dot h
  · intro l g1 g2 h
    exact ⟨(searchTimes_parts h).1, (searchTimes_parts h).2.1⟩
